import Mathlib

/-!
Verification development for the picture organizer program
(`sort_pictures.py`).  Paths and file names are modelled as lists of
characters, byte contents as lists of naturals, and the filesystem as an
association list from paths to contents.  Every function of the source
program that the specification talks about is translated below:
`create_moves`, `check_update_old_info`, `append_moves_to_json`,
`sort_file_in` / the moving loop of `do_move_files`, `dryrun_move_files`,
`extract_timestamp_from_filemeta` and `cleanup`.
-/

set_option maxHeartbeats 1000000

namespace SortPictures

/-- Paths, file names and generic character strings of the program. -/
abbrev Path := List Char

/-- Coercion from a Lean string literal to the character-list model. -/
def str (s : String) : Path := s.data

/-- Timezone-naive second-resolution timestamp, as produced by the
timestamp resolver (`datetime.datetime` restricted to what the program
reads from it). -/
structure Timestamp where
  year : Nat
  month : Nat
  day : Nat
  hour : Nat
  minute : Nat
  second : Nat
deriving DecidableEq

/-- Contents of a file: its bytes, plus the capture timestamp the external
timestamp resolver would produce for it (`none` when resolution fails).
Byte-for-byte comparison looks only at `bytes`. -/
structure Content where
  bytes : List Nat
  ts : Option Timestamp
deriving DecidableEq

/-- Association-list lookup by path, first match (Python dict access). -/
def lookupP {α : Type} : List (Path × α) → Path → Option α
  | [], _ => none
  | kv :: t, p => if kv.1 = p then some kv.2 else lookupP t p

/-- Remove every entry with the given key (Python `del d[k]` on a dict,
where keys are unique). -/
def removeKey {α : Type} : List (Path × α) → Path → List (Path × α)
  | [], _ => []
  | kv :: t, p => if kv.1 = p then removeKey t p else kv :: removeKey t p

/-- Split a character list at every occurrence of the character `c`
(Python `str.split`). -/
def splitOnChar (c : Char) : List Char → List (List Char)
  | [] => [[]]
  | x :: xs =>
    match splitOnChar c xs with
    | [] => [[]]
    | y :: ys => if x = c then [] :: y :: ys else (x :: y) :: ys

/-- Last component of `os.path.basename`: everything after the final
slash of the path. -/
def basenameP (p : Path) : Path :=
  (splitOnChar '/' p).getLastD []

/-- Boolean test that `pat` is a prefix of `s`. -/
def begWith : Path → Path → Bool
  | [], _ => true
  | _ :: _, [] => false
  | a :: s, b :: t => if a = b then begWith s t else false

/-- Boolean substring test (Python `needle in haystack` on strings). -/
def containsSub (needle : Path) : Path → Bool
  | [] => begWith needle []
  | c :: t => begWith needle (c :: t) || containsSub needle t

/-- Worker for `replaceAll`: while the skip counter is positive the
characters of an already-matched pattern occurrence are dropped; at zero
the pattern is tried at the current position, emitting the replacement
and arming the counter on a match. -/
def repGo (pat rep : Path) : Nat → Path → Path
  | _, [] => []
  | 0, c :: t =>
    if pat ≠ [] ∧ begWith pat (c :: t) = true then
      rep ++ repGo pat rep (pat.length - 1) t
    else
      c :: repGo pat rep 0 t
  | k + 1, _ :: t => repGo pat rep k t

/-- Replace every occurrence of the non-empty pattern `pat` by `rep`,
left to right, non-overlapping (Python `str.replace`). -/
def replaceAll (pat rep s : Path) : Path :=
  repGo pat rep 0 s

/-- Decimal digit character for a value below ten. -/
def digitCh (d : Nat) : Char :=
  match d with
  | 0 => '0' | 1 => '1' | 2 => '2' | 3 => '3' | 4 => '4'
  | 5 => '5' | 6 => '6' | 7 => '7' | 8 => '8' | 9 => '9'
  | _ => '*'

/-- Fuel-indexed decimal digit expansion; the fuel only needs to dominate
the number. -/
def natDigitsF : Nat → Nat → List Char
  | 0, _ => []
  | _ + 1, 0 => []
  | f + 1, n + 1 => natDigitsF f ((n + 1) / 10) ++ [digitCh ((n + 1) % 10)]

/-- Decimal digits of a positive natural number, most significant first
(empty for zero). -/
def natDigits (n : Nat) : List Char :=
  natDigitsF n n

/-- Decimal rendering of a natural number (Python `str(n)`). -/
def natToChars (n : Nat) : List Char :=
  if n = 0 then ['0'] else natDigits n

/-- Zero-padded two-digit rendering used by `strftime` numeric fields. -/
def pad2 (n : Nat) : List Char :=
  if n < 10 then '0' :: natToChars n else natToChars n

/-- English month names used by the `%B` field of `strftime`. -/
def monthNames : List Path :=
  [str ("January"), str ("February"), str ("March"), str ("April"),
   str ("May"), str ("June"), str ("July"), str ("August"),
   str ("September"), str ("October"), str ("November"), str ("December")]

/-- Month name of a (1-based) month number. -/
def monthName (m : Nat) : Path :=
  monthNames.getD (m - 1) (str ("Month"))

/-- Python `os.path.join` for the relative components the program uses. -/
def joinP (a b : Path) : Path :=
  if a = [] then b else a ++ '/' :: b

/-- File-name part produced by
`timestamp.strftime('%m_%d_%H_%M_%S__%-dth_of_%B_at_%Hh_%Mm')`
in `create_moves`. -/
def strf (t : Timestamp) : Path :=
  pad2 t.month ++ str ("_") ++ pad2 t.day ++ str ("_") ++ pad2 t.hour ++
  str ("_") ++ pad2 t.minute ++ str ("_") ++ pad2 t.second ++ str ("__") ++
  natToChars t.day ++ str ("th_of_") ++ monthName t.month ++ str ("_at_") ++
  pad2 t.hour ++ str ("h_") ++ pad2 t.minute ++ str ("m")

/-- Extension extracted in `create_moves`:
`os.path.basename(path).split('.')[-1]`. -/
def extOf (path : Path) : Path :=
  (splitOnChar '.' (basenameP path)).getLastD []

/-- Target path computed for one `(timestamp, path)` record:
`os.path.join(out, str(timestamp.year), strftime-name + '.' + ext)`. -/
def targetName (out : Path) (t : Timestamp) (ext : Path) : Path :=
  joinP (joinP out (natToChars t.year)) (strf t ++ '.' :: ext)

/-- Step of the first loop of `create_moves`: group a source path under
its computed target name, preserving dict insertion order. -/
def addPic (acc : List (Path × List Path)) (key : Path) (p : Path) :
    List (Path × List Path) :=
  match acc with
  | [] => [(key, [p])]
  | (k, ps) :: t =>
    if k = key then (k, ps ++ [p]) :: t else (k, ps) :: addPic t key p

/-- First loop of `create_moves`: the `mapping` dict from target name to
the list of source files that map to it, in insertion order. -/
def groupPics (pics : List (Timestamp × Path)) (out : Path) :
    List (Path × List Path) :=
  pics.foldl (fun acc tp => addPic acc (targetName out tp.1 (extOf tp.2)) tp.2) []

/-- Python `enumerate`, starting at index `i`. -/
def enumFromP {α : Type} (i : Nat) : List α → List (Nat × α)
  | [] => []
  | x :: xs => (i, x) :: enumFromP (i + 1) xs

/-- Error-propagating map (the Python loop raises out of the whole
function at the first failure). -/
def mapEx {α β : Type} (f : α → Except String β) :
    List α → Except String (List β)
  | [] => .ok []
  | x :: xs =>
    match f x with
    | .error e => .error e
    | .ok y =>
      match mapEx f xs with
      | .error e => .error e
      | .ok ys => .ok (y :: ys)

/-- Second loop body of `create_moves` for one group: a group of one maps
directly, a larger group is renamed with suffixes `_1`, `_2`, ...; the
suffix is spliced in with `new_name.split('.')`, which raises unless the
name contains exactly one dot. -/
def expandGroup (g : Path × List Path) : Except String (List (Path × Path)) :=
  if g.2.length = 1 then
    .ok [(g.1, g.2.headD [])]
  else
    match splitOnChar '.' g.1 with
    | [d, e] =>
      .ok ((enumFromP 0 g.2).map
        (fun fi => (d ++ '_' :: natToChars (fi.1 + 1) ++ '.' :: e, fi.2)))
    | _ => .error ("unpack")

/-- Model of `create_moves(pictures, out)`.  The returned value lists the
assignments `moves[name] = file` in the order the Python loop performs
them; because target names never repeat (proved below) this coincides
with the resulting dict. -/
def create_moves (pics : List (Timestamp × Path)) (out : Path) :
    Except String (List (Path × Path)) :=
  match mapEx expandGroup (groupPics pics out) with
  | .error e => .error e
  | .ok ls => .ok ls.flatten

/-- Pattern rewritten by the duplicate check of `check_update_old_info`. -/
def patSorted : Path := str ("/pictures_sorted/")

/-- Replacement used by the duplicate check of `check_update_old_info`. -/
def patPlain : Path := str ("/pictures/")

/-- State threaded through the loop of `check_update_old_info`.  The
fields `deletions`, `warnings` and `compares` record the `os.remove`
calls, the printed manual-review reports and the `filecmp.cmp` calls;
`err` holds the first uncaught exception, after which the loop is dead. -/
structure RecState where
  moves : List (Path × Path)
  files : List (Path × Content)
  deletedCount : Nat
  deletions : List Path
  warnings : List (Path × Path)
  compares : List (Path × Path)
  err : Option String
deriving DecidableEq

/-- Body of the loop of `check_update_old_info` for one entry `(k, v)` of
the persisted `info.json`. -/
def checkStep (dry : Bool) (st : RecState) (kv : Path × Path) : RecState :=
  if st.err.isSome then st
  else
    let oldFilename := basenameP kv.1
    if oldFilename ∈ st.moves.map (fun nf => basenameP nf.1) then
      let incoming := (st.moves.map Prod.fst).filter (fun nf => containsSub oldFilename nf)
      match incoming with
      | [inKey] =>
        match lookupP st.moves inKey with
        | none => { st with err := some ("keyerror") }
        | some incomingFile =>
          let moves := removeKey st.moves inKey
          let existing := replaceAll patSorted patPlain kv.1
          match lookupP st.files existing, lookupP st.files incomingFile with
          | some c1, some c2 =>
            let st := { st with moves := moves,
                                compares := st.compares ++ [(existing, incomingFile)] }
            if c1.bytes = c2.bytes then
              if dry then st
              else { st with deletedCount := st.deletedCount + 1,
                             deletions := st.deletions ++ [incomingFile],
                             files := removeKey st.files incomingFile }
            else
              { st with warnings := st.warnings ++ [(existing, incomingFile)] }
          | _, _ =>
            { st with moves := moves,
                      err := some ("filecmp io error") }
      | _ => { st with err := some ("more than one file with the same name") }
    else st

/-- Model of `check_update_old_info(moves, json_file, dry_run)`: fold the
loop body over the parsed old `info.json` entries. -/
def checkUpdate (dry : Bool) (moves : List (Path × Path))
    (files : List (Path × Content)) (oldInfo : List (Path × Path)) : RecState :=
  oldInfo.foldl (checkStep dry)
    { moves := moves, files := files, deletedCount := 0,
      deletions := [], warnings := [], compares := [], err := none }

/-- State of the moving loop of `do_move_files`. -/
structure MoveState where
  files : List (Path × Content)
  done : List (Path × Path)
  err : Option String
deriving DecidableEq

/-- Model of one `sort_file_in(new_file, old_file)` call inside the loop
of `do_move_files`: directory creation is not observable here, the move
raises if the target already exists, then relocates the file.  An
uncaught exception freezes the rest of the loop. -/
def moveStep (st : MoveState) (mv : Path × Path) : MoveState :=
  if st.err.isSome then st
  else if (lookupP st.files mv.1).isSome then
    { st with err := some ("file already exists") }
  else
    match lookupP st.files mv.2 with
    | none => { st with err := some ("no such file") }
    | some c =>
      { st with files := removeKey st.files mv.2 ++ [(mv.1, c)],
                done := st.done ++ [mv] }

/-- Moving loop of `do_move_files` over the reconciled plan. -/
def moveAll (moves : List (Path × Path)) (files : List (Path × Content)) :
    MoveState :=
  moves.foldl moveStep { files := files, done := [], err := none }

/-- Model of `append_moves_to_json(moves, json_file, dry_run)`: raises on
a key surviving in both, merges, and persists only when not a dry run.
Returns the ledger file state after the call plus the error, if any. -/
def appendMoves (moves : List (Path × Path))
    (ledger : Option (List (Path × Path))) (dry : Bool) :
    Option (List (Path × Path)) × Option String :=
  let oldInfo := ledger.getD []
  if ∃ kv ∈ oldInfo, kv.1 ∈ moves.map Prod.fst then
    (ledger, some ("still exists in the new info.json"))
  else if dry then (ledger, none)
  else (some (oldInfo ++ moves), none)

/-- Filesystem as the program sees it: regular files by absolute path,
and the parsed contents of the persisted `info.json` ledger (`none` when
the file does not exist). -/
structure FS where
  files : List (Path × Content)
  ledger : Option (List (Path × Path))
deriving DecidableEq

/-- Observable outcome of one `do_move_files` or `dryrun_move_files`
invocation: the filesystem afterwards, the reconciled plan that was
printed or executed, the number of moves performed, the duplicate
counter, and the recorded side effects. -/
structure RunOut where
  files : List (Path × Content)
  ledger : Option (List (Path × Path))
  plannedMoves : List (Path × Path)
  movedCount : Nat
  deletedDuplicates : Nat
  warnings : List (Path × Path)
  compares : List (Path × Path)
  deletions : List Path
  err : Option String
deriving DecidableEq

/-- Model of `find_pictures(source)` restricted to what the later phases
consume: every file below the source directory whose timestamp the
external resolver determines, in walk order.  Files without a resolvable
timestamp land in the error report and are not returned. -/
def findPictures (fs : FS) (source : Path) : List (Timestamp × Path) :=
  fs.files.filterMap (fun pc =>
    match pc.2.ts with
    | some t => if begWith (source ++ [ '/' ]) pc.1 then some (t, pc.1) else none
    | none => none)

/-- Model of `do_move_files(pictures, out)` wired as in `main` with
apply mode: plan, reconcile against `info.json` with `dry_run=False`,
move the surviving entries, then append and persist the ledger. -/
def doMoveFiles (fs : FS) (pics : List (Timestamp × Path)) (out : Path) : RunOut :=
  match create_moves pics out with
  | .error e =>
    { files := fs.files, ledger := fs.ledger, plannedMoves := [],
      movedCount := 0, deletedDuplicates := 0, warnings := [],
      compares := [], deletions := [], err := some e }
  | .ok m0 =>
    let st := checkUpdate false m0 fs.files (fs.ledger.getD [])
    if st.err.isSome then
      { files := st.files, ledger := fs.ledger, plannedMoves := st.moves,
        movedCount := 0, deletedDuplicates := st.deletedCount,
        warnings := st.warnings, compares := st.compares,
        deletions := st.deletions, err := st.err }
    else
      let mv := moveAll st.moves st.files
      match mv.err with
      | some e =>
        { files := mv.files, ledger := fs.ledger, plannedMoves := st.moves,
          movedCount := mv.done.length, deletedDuplicates := st.deletedCount,
          warnings := st.warnings, compares := st.compares,
          deletions := st.deletions, err := some e }
      | none =>
        match appendMoves st.moves fs.ledger false with
        | (led, e) =>
          { files := mv.files, ledger := led, plannedMoves := st.moves,
            movedCount := mv.done.length, deletedDuplicates := st.deletedCount,
            warnings := st.warnings, compares := st.compares,
            deletions := st.deletions, err := e }

/-- Model of `dryrun_move_files(pictures, out)`: plan, reconcile with
`dry_run=True`, print the plan, and call `append_moves_to_json` with
`dry_run=True` so that nothing is persisted. -/
def dryrunMoveFiles (fs : FS) (pics : List (Timestamp × Path)) (out : Path) : RunOut :=
  match create_moves pics out with
  | .error e =>
    { files := fs.files, ledger := fs.ledger, plannedMoves := [],
      movedCount := 0, deletedDuplicates := 0, warnings := [],
      compares := [], deletions := [], err := some e }
  | .ok m0 =>
    let st := checkUpdate true m0 fs.files (fs.ledger.getD [])
    if st.err.isSome then
      { files := st.files, ledger := fs.ledger, plannedMoves := st.moves,
        movedCount := 0, deletedDuplicates := st.deletedCount,
        warnings := st.warnings, compares := st.compares,
        deletions := st.deletions, err := st.err }
    else
      match appendMoves st.moves fs.ledger true with
      | (led, e) =>
        { files := st.files, ledger := led, plannedMoves := st.moves,
          movedCount := 0, deletedDuplicates := st.deletedCount,
          warnings := st.warnings, compares := st.compares,
          deletions := st.deletions, err := e }

/-- One full Apply invocation: discovery followed by `do_move_files`. -/
def applyRun (fs : FS) (source out : Path) : RunOut :=
  doMoveFiles fs (findPictures fs source) out

/-- One full DryRun invocation: discovery followed by
`dryrun_move_files`. -/
def dryRun (fs : FS) (source out : Path) : RunOut :=
  dryrunMoveFiles fs (findPictures fs source) out

/-- Filesystem view of a finished run, for feeding a second run. -/
def RunOut.toFS (r : RunOut) : FS :=
  { files := r.files, ledger := r.ledger }

/-- Suspicious-timestamp test of `extract_timestamp_from_filemeta`,
exactly as the chained comparison in the source evaluates:
`min_time.year == now.year and
 (min_time.month == now.month and now.month == min_time.day and
  min_time.day == now.day)`. -/
def suspiciousChain (m now : Timestamp) : Bool :=
  m.year = now.year ∧ m.month = now.month ∧ now.month = m.day ∧ m.day = now.day

/-- Model of `extract_timestamp_from_filemeta(path)`.  The filesystem
times `ctime` and `mtime` are epoch seconds, `conv` stands for
`datetime.datetime.fromtimestamp`, and `now` is the wall-clock instant of
the run, passed explicitly. -/
def extract_timestamp_from_filemeta (conv : Nat → Timestamp)
    (ctime mtime : Nat) (now : Timestamp) : Except String Timestamp :=
  let minTime := conv (min ctime mtime)
  if suspiciousChain minTime now then .error ("Suspicious timestamp")
  else .ok minTime

/-- Directory tree walked by `cleanup`: the files directly inside a
directory and its subdirectories. -/
inductive DirTree where
  | mk (fls : List Path) (subs : List DirTree)

mutual

/-- Model of `cleanup(root)`: bottom-up, a directory is removed when it
has no files and every subdirectory has itself been removed.  Returns the
number of removed directories and the surviving tree, `none` when the
directory itself was removed. -/
def cleanupT : DirTree → Nat × Option DirTree
  | .mk fls subs =>
    let r := cleanupL subs
    if fls.isEmpty && r.2.isEmpty then (r.1 + 1, none)
    else (r.1, some (.mk fls r.2))

/-- Bottom-up cleanup of a list of sibling directories: total removed
count and the surviving siblings. -/
def cleanupL : List DirTree → Nat × List DirTree
  | [] => (0, [])
  | t :: ts =>
    let rt := cleanupT t
    let rts := cleanupL ts
    (rt.1 + rts.1,
      (match rt.2 with
       | none => []
       | some u => [u]) ++ rts.2)

end

mutual

/-- Number of directories in a tree, the root included. -/
def totalDirsT : DirTree → Nat
  | .mk _ subs => 1 + totalDirsL subs

/-- Number of directories in a forest. -/
def totalDirsL : List DirTree → Nat
  | [] => 0
  | t :: ts => totalDirsT t + totalDirsL ts

end

/-! ### Witness and counterexample inputs -/

/-- Timestamp used by several concrete scenarios below. -/
def ts0 : Timestamp := ⟨2021, 1, 2, 10, 0, 0⟩

/-- Target key of the duplicate scenario for the dry-run report claim. -/
def keyC7 : Path := targetName (str ("o")) ts0 (str ("jpg"))

/-- Filesystem for the dry-run report claim: one new source file that is
byte-identical to the file already recorded at the same target key. -/
def fsC7 : FS :=
  { files := [(str ("s/a.jpg"), ⟨[5], some ts0⟩), (keyC7, ⟨[5], none⟩)],
    ledger := some [(keyC7, str ("old/a.jpg"))] }

/-- Files for the execution-conflict scenario: the first target already
exists, the second move would be executable. -/
def filesC8 : List (Path × Content) :=
  [(str ("n1"), ⟨[1], none⟩), (str ("o2"), ⟨[2], none⟩)]

/-- Two planned moves for the execution-conflict scenario. -/
def movesC8 : List (Path × Path) :=
  [(str ("n1"), str ("o1")), (str ("n2"), str ("o2"))]

/-- Ledger for the deletion-soundness scenario: one entry whose basename
matches the plan key of a different year. -/
def oldC1 : List (Path × Path) := [(str ("o/2020/B.jpg"), str ("x"))]

/-- Plan for the deletion-soundness scenario. -/
def movesC1 : List (Path × Path) := [(str ("o/2021/B.jpg"), str ("s/p.jpg"))]

/-- Files for the deletion-soundness scenario: ledger target and incoming
file byte-identical. -/
def filesC1 : List (Path × Content) :=
  [(str ("o/2020/B.jpg"), ⟨[7], none⟩), (str ("s/p.jpg"), ⟨[7], none⟩)]

/-- Ledger for the ambiguous-duplicate scenario. -/
def oldC2 : List (Path × Path) := [(str ("d/t.jpg"), str ("x"))]

/-- Plan for the ambiguous-duplicate scenario, sharing the full key. -/
def movesC2 : List (Path × Path) := [(str ("d/t.jpg"), str ("s/a.jpg"))]

/-- Files for the ambiguous-duplicate scenario: contents differ. -/
def filesC2 : List (Path × Content) :=
  [(str ("d/t.jpg"), ⟨[1], none⟩), (str ("s/a.jpg"), ⟨[2], none⟩)]

/-- Ledger for the comparison-target scenario. -/
def oldC5 : List (Path × Path) := [(str ("o/2020/B.jpg"), str ("x"))]

/-- Plan for the comparison-target scenario: same basename, different
full TargetPath key. -/
def movesC5 : List (Path × Path) := [(str ("o/2021/B.jpg"), str ("s/q.jpg"))]

/-- Files for the comparison-target scenario. -/
def filesC5 : List (Path × Content) :=
  [(str ("o/2020/B.jpg"), ⟨[1], none⟩), (str ("s/q.jpg"), ⟨[2], none⟩)]

/-- Initial reconciliation state for the comparison-target scenario, as
built by check_update_old_info before its loop starts. -/
def stC5 : RecState :=
  { moves := movesC5, files := filesC5, deletedCount := 0,
    deletions := [], warnings := [], compares := [], err := none }

/-- Decimal value of a digit string, used to invert `natToChars`. -/
def charsVal (l : List Char) : Nat :=
  l.foldl (fun a c => a * 10 + (c.toNat - 48)) 0

/-- Shape every plan-group key has: a stem ending in the letter m from
the strftime format, one dot, and a dot-free extension. -/
def GoodKey (nn : Path) : Prop :=
  ∃ P E, nn = P ++ '.' :: E ∧ (∃ q, P = q ++ [ 'm' ]) ∧ '.' ∉ E

/-- Records for the plan-uniqueness witness: two files with the same
timestamp and extension. -/
def picsC6 : List (Timestamp × Path) :=
  [(ts0, str ("s/a.jpg")), (ts0, str ("s/b.jpg"))]

/-- Expected plan of the plan-uniqueness witness. -/
def mvsC6 : List (Path × Path) :=
  [(str ("o/2021/01_02_10_00_00__2th_of_January_at_10h_00m_1.jpg"), str ("s/a.jpg")),
   (str ("o/2021/01_02_10_00_00__2th_of_January_at_10h_00m_2.jpg"), str ("s/b.jpg"))]

/-- Filesystem of the idempotence witness: one fresh picture, no ledger. -/
def fsC3w : FS :=
  { files := [(str ("s/a.jpg"), ⟨[1], some ts0⟩)], ledger := none }

/-- Ledger key of the idempotence counterexample: same basename as the
suffixed plan key, recorded under an unrelated directory. -/
def zKeyC3 : Path := str ("z/") ++ strf ts0 ++ str ("_1.jpg")

/-- Filesystem of the idempotence counterexample: two same-second
pictures and a ledger entry matching the first suffixed name with
different content. -/
def fsC3cex : FS :=
  { files := [(str ("s/a.jpg"), ⟨[1], some ts0⟩),
              (str ("s/b.jpg"), ⟨[2], some ts0⟩),
              (zKeyC3, ⟨[3], none⟩)],
    ledger := some [(zKeyC3, str ("w"))] }

-- CONCRETE_DEFS_HERE

/-! ### Helper lemmas -/

/-- Fuel does not matter for `natDigitsF` once it dominates the input. -/
theorem natDigitsF_fuel : ∀ (f g n : Nat), n ≤ f → n ≤ g →
    natDigitsF f n = natDigitsF g n := by
  intro f
  induction f with
  | zero => intro g n hf _; cases Nat.le_zero.mp hf; cases g <;> rfl
  | succ f ih =>
    intro g n hf hg
    cases n with
    | zero => cases g <;> rfl
    | succ n =>
      cases g with
      | zero => omega
      | succ g =>
        show natDigitsF f ((n + 1) / 10) ++ _ = natDigitsF g ((n + 1) / 10) ++ _
        rw [ih g ((n + 1) / 10) (by omega) (by omega)]

/-- Unfolding equation for `natDigits` on a positive number. -/
theorem natDigits_succ (n : Nat) :
    natDigits (n + 1) = natDigits ((n + 1) / 10) ++ [digitCh ((n + 1) % 10)] := by
  show natDigitsF n ((n + 1) / 10) ++ _ = natDigitsF ((n + 1) / 10) ((n + 1) / 10) ++ _
  rw [natDigitsF_fuel n ((n + 1) / 10) ((n + 1) / 10) (by omega) (by omega)]

/-- Value of `natDigits` at zero. -/
theorem natDigits_zero : natDigits 0 = [] := rfl

/-- A dry-run reconciliation step never touches the filesystem. -/
theorem checkStep_dry_files (st : RecState) (kv : Path × Path) :
    (checkStep true st kv).files = st.files := by
  unfold checkStep
  dsimp only
  repeat' split
  all_goals first | rfl | (exact absurd rfl (by assumption))

/-- Folded form: a dry-run reconciliation loop never touches the
filesystem, whatever state it starts from. -/
theorem foldl_checkStep_dry_files :
    ∀ (old : List (Path × Path)) (st : RecState),
      (List.foldl (checkStep true) st old).files = st.files := by
  intro old
  induction old with
  | nil => intro st; rfl
  | cons kv rest ih =>
    intro st
    rw [List.foldl_cons, ih, checkStep_dry_files]

/-- Dry-run reconciliation never touches the filesystem. -/
theorem checkUpdate_dry_files (m : List (Path × Path))
    (fls : List (Path × Content)) (old : List (Path × Path)) :
    (checkUpdate true m fls old).files = fls := by
  unfold checkUpdate
  exact foldl_checkStep_dry_files old _

/-- A dry-run ledger append leaves the persisted ledger untouched. -/
theorem appendMoves_dry_ledger (m : List (Path × Path))
    (l : Option (List (Path × Path))) :
    (appendMoves m l true).1 = l := by
  unfold appendMoves
  dsimp only
  split <;> rfl

/-- A frozen moving loop does nothing. -/
theorem moveStep_frozen (st : MoveState) (mv : Path × Path)
    (h : st.err.isSome) : moveStep st mv = st := by
  unfold moveStep
  simp [h]

/-- The whole moving loop does nothing once an exception is pending. -/
theorem foldl_moveStep_frozen :
    ∀ (ms : List (Path × Path)) (st : MoveState), st.err.isSome →
      ms.foldl moveStep st = st := by
  intro ms
  induction ms with
  | nil => intro st _; rfl
  | cons mv rest ih =>
    intro st h
    rw [List.foldl_cons, moveStep_frozen st mv h]
    exact ih st h

/-- A move whose target exists raises and changes nothing else. -/
theorem moveStep_conflict (st : MoveState) (mv : Path × Path)
    (h : st.err = none) (hc : (lookupP st.files mv.1).isSome) :
    moveStep st mv = { st with err := some ("file already exists") } := by
  unfold moveStep
  simp [h, hc]

/-- Splitting never produces an empty list of components. -/
theorem splitOnChar_ne_nil (c : Char) : ∀ l : List Char, splitOnChar c l ≠ [] := by
  intro l
  induction l with
  | nil => simp [splitOnChar]
  | cons x xs ih =>
    unfold splitOnChar
    cases h : splitOnChar c xs with
    | nil => exact absurd h ih
    | cons y ys => dsimp; split <;> simp

/-- A single component means the character never occurred. -/
theorem splitOnChar_singleton (c : Char) :
    ∀ l y : List Char, splitOnChar c l = [y] → l = y := by
  intro l
  induction l with
  | nil =>
    intro y h
    simp [splitOnChar] at h
    exact h.symm
  | cons x xs ih =>
    intro y h
    unfold splitOnChar at h
    cases hs : splitOnChar c xs with
    | nil => exact absurd hs (splitOnChar_ne_nil c xs)
    | cons y0 ys =>
      rw [hs] at h
      dsimp at h
      by_cases hx : x = c
      · rw [if_pos hx] at h; cases h
      · rw [if_neg hx] at h
        cases h
        have := ih y0 (by rw [hs])
        rw [this]

/-- Two components reconstruct the list around one occurrence. -/
theorem splitOnChar_two (c : Char) :
    ∀ l a b : List Char, splitOnChar c l = [a, b] → l = a ++ c :: b := by
  intro l
  induction l with
  | nil => intro a b h; simp [splitOnChar] at h
  | cons x xs ih =>
    intro a b h
    unfold splitOnChar at h
    cases hs : splitOnChar c xs with
    | nil => exact absurd hs (splitOnChar_ne_nil c xs)
    | cons y0 ys =>
      rw [hs] at h
      dsimp at h
      by_cases hx : x = c
      · rw [if_pos hx] at h
        injection h with h1 h2
        injection h2 with h3 h4
        subst h4
        have hxs := splitOnChar_singleton c xs y0 (by rw [hs])
        subst h1
        subst h3
        simp [hx, hxs]
      · rw [if_neg hx] at h
        cases h
        have := ih y0 b (by rw [hs])
        simp [this]

/-- Components of a split never contain the splitting character. -/
theorem splitOnChar_not_mem (c : Char) :
    ∀ l s : List Char, s ∈ splitOnChar c l → c ∉ s := by
  intro l
  induction l with
  | nil =>
    intro s h
    simp [splitOnChar] at h
    subst h
    simp
  | cons x xs ih =>
    intro s h
    unfold splitOnChar at h
    cases hs : splitOnChar c xs with
    | nil => exact absurd hs (splitOnChar_ne_nil c xs)
    | cons y0 ys =>
      rw [hs] at h
      dsimp at h
      by_cases hx : x = c
      · rw [if_pos hx] at h
        rcases List.mem_cons.mp h with h1 | h1
        · simp [h1]
        · exact ih s (by rw [hs]; exact h1)
      · rw [if_neg hx] at h
        rcases List.mem_cons.mp h with h1 | h1
        · subst h1
          intro hc
          rcases List.mem_cons.mp hc with h2 | h2
          · exact hx h2.symm
          · exact ih y0 (by rw [hs]; exact List.mem_cons_self y0 ys) h2
        · exact ih s (by rw [hs]; exact List.mem_cons.mpr (Or.inr h1))

/-- Every path is its basename preceded by some prefix. -/
theorem basename_suffix : ∀ x : Path, ∃ pre, x = pre ++ basenameP x := by
  intro x
  induction x with
  | nil => exact ⟨[], by simp [basenameP, splitOnChar]⟩
  | cons ch t ih =>
    obtain ⟨pre, hp⟩ := ih
    unfold basenameP
    unfold splitOnChar
    cases hs : splitOnChar '/' t with
    | nil => exact absurd hs (splitOnChar_ne_nil _ t)
    | cons y ys =>
      dsimp
      by_cases hc : ch = '/'
      · rw [if_pos hc]
        refine ⟨ch :: pre, ?_⟩
        have : ([] :: y :: ys).getLastD ([] : Path) = (y :: ys).getLastD [] := by
          rw [List.getLastD_cons]
        rw [this]
        have hb : basenameP t = (y :: ys).getLastD [] := by
          unfold basenameP; rw [hs]
        rw [hb.symm]
        simpa using congrArg (fun z => ch :: z) hp
      · rw [if_neg hc]
        cases ys with
        | nil =>
          refine ⟨[], ?_⟩
          have ht : t = y := splitOnChar_singleton '/' t y (by rw [hs])
          simp [List.getLastD_cons, ht]
        | cons z zs =>
          refine ⟨ch :: pre, ?_⟩
          have h1 : ((ch :: y) :: z :: zs).getLastD ([] : Path) =
              (z :: zs).getLastD [] := by
            simp [List.getLastD_cons]
          have hb : basenameP t = (z :: zs).getLastD [] := by
            unfold basenameP; rw [hs]; simp [List.getLastD_cons]
          rw [h1, hb.symm]
          simpa using congrArg (fun w => ch :: w) hp

/-- A prefix test succeeds on any extension of the pattern. -/
theorem begWith_append : ∀ l r : Path, begWith l (l ++ r) = true := by
  intro l
  induction l with
  | nil => intro r; rfl
  | cons c t ih => intro r; simpa [begWith] using ih r

/-- A substring test succeeds on any string that ends with the needle. -/
theorem containsSub_suffix : ∀ (n pre x : Path), x = pre ++ n →
    containsSub n x = true := by
  intro n pre
  induction pre with
  | nil =>
    intro x hx
    rw [List.nil_append] at hx
    rw [hx]
    cases n with
    | nil => rfl
    | cons c t =>
      show (begWith (c :: t) (c :: t) || _) = true
      have hb := begWith_append (c :: t) []
      rw [List.append_nil] at hb
      simp [hb]
  | cons c pre ih =>
    intro x hx
    subst hx
    show (begWith n (c :: (pre ++ n)) || containsSub n (pre ++ n)) = true
    simp [ih (pre ++ n) rfl]

/-- Any path contains its own basename as a substring. -/
theorem basename_containsSub (x : Path) : containsSub (basenameP x) x = true := by
  obtain ⟨pre, hp⟩ := basename_suffix x
  exact containsSub_suffix (basenameP x) pre x hp

/-- A successful lookup is a membership. -/
theorem lookupP_mem {α : Type} :
    ∀ (l : List (Path × α)) (x : Path) (v : α), lookupP l x = some v → (x, v) ∈ l := by
  intro l
  induction l with
  | nil => intro x v h; cases h
  | cons kv t ih =>
    intro x v h
    unfold lookupP at h
    by_cases hk : kv.1 = x
    · rw [if_pos hk] at h
      cases h
      subst hk
      exact List.mem_cons.mpr (Or.inl rfl)
    · rw [if_neg hk] at h
      exact List.mem_cons.mpr (Or.inr (ih x v h))

/-- Key removal only drops entries. -/
theorem removeKey_sub {α : Type} :
    ∀ (l : List (Path × α)) (k : Path) (e : Path × α),
      e ∈ removeKey l k → e ∈ l := by
  intro l k
  induction l with
  | nil => intro e h; cases h
  | cons kv t ih =>
    intro e h
    unfold removeKey at h
    by_cases hk : kv.1 = k
    · rw [if_pos hk] at h
      exact List.mem_cons.mpr (Or.inr (ih e h))
    · rw [if_neg hk] at h
      rcases List.mem_cons.mp h with h1 | h1
      · exact List.mem_cons.mpr (Or.inl h1)
      · exact List.mem_cons.mpr (Or.inr (ih e h1))

/-- An entry of the list that is gone after key removal bears that key. -/
theorem removeKey_missing {α : Type} :
    ∀ (l : List (Path × α)) (k : Path) (e : Path × α),
      e ∈ l → e ∉ removeKey l k → e.1 = k := by
  intro l k
  induction l with
  | nil => intro e h; cases h
  | cons kv t ih =>
    intro e he hn
    unfold removeKey at hn
    by_cases hk : kv.1 = k
    · rw [if_pos hk] at hn
      rcases List.mem_cons.mp he with h1 | h1
      · rw [h1, hk]
      · exact ih e h1 hn
    · rw [if_neg hk] at hn
      rcases List.mem_cons.mp he with h1 | h1
      · exact absurd (List.mem_cons.mpr (Or.inl h1)) hn
      · exact ih e h1 (fun hm => hn (List.mem_cons.mpr (Or.inr hm)))

/-- The removed key does not occur in the result of `removeKey`. -/
theorem removeKey_gone {α : Type} :
    ∀ (l : List (Path × α)) (k : Path) (v : α), (k, v) ∉ removeKey l k := by
  intro l k
  induction l with
  | nil => intro v h; cases h
  | cons kv t ih =>
    intro v h
    unfold removeKey at h
    by_cases hk : kv.1 = k
    · rw [if_pos hk] at h; exact ih v h
    · rw [if_neg hk] at h
      rcases List.mem_cons.mp h with h1 | h1
      · exact hk ((congrArg Prod.fst h1).symm)
      · exact ih v h1

/-- When the basename of a ledger key occurs among the plan basenames and
the substring filter returns exactly one plan key, that key carries the
matching basename and the substring. -/
theorem filter_single (st : RecState) (bn ik : Path)
    (hm : bn ∈ st.moves.map (fun nf => basenameP nf.1))
    (hfil : (st.moves.map Prod.fst).filter (fun nf => containsSub bn nf) = [ik]) :
    basenameP ik = bn ∧ containsSub bn ik = true := by
  obtain ⟨nf, hnf, hbn⟩ := List.mem_map.mp hm
  have hsub : containsSub bn nf.1 = true := by
    obtain ⟨pre, hp⟩ := basename_suffix nf.1
    rw [hbn] at hp
    exact containsSub_suffix bn pre nf.1 hp
  have hin : nf.1 ∈ (st.moves.map Prod.fst).filter (fun nf2 => containsSub bn nf2) :=
    List.mem_filter.mpr ⟨List.mem_map.mpr ⟨nf, hnf, rfl⟩, hsub⟩
  rw [hfil] at hin
  have heq : nf.1 = ik := by simpa using hin
  exact ⟨heq ▸ hbn, heq ▸ hsub⟩

/-- A frozen reconciliation step does nothing. -/
theorem checkStep_frozen (dry : Bool) (st : RecState) (kv : Path × Path)
    (h : st.err.isSome) : checkStep dry st kv = st := by
  unfold checkStep
  simp [h]

/-- A ledger entry whose basename does not occur among the plan basenames
is skipped. -/
theorem checkStep_skip (dry : Bool) (st : RecState) (kv : Path × Path)
    (hm : basenameP kv.1 ∉ st.moves.map (fun nf => basenameP nf.1)) :
    checkStep dry st kv = st := by
  unfold checkStep
  by_cases he : st.err.isSome
  · simp [he]
  · simp [he, hm]

/-- Reconciliation entries only ever leave the plan, never enter it. -/
theorem checkStep_moves_sub (dry : Bool) (st : RecState) (kv : Path × Path) :
    ∀ e, e ∈ (checkStep dry st kv).moves → e ∈ st.moves := by
  intro e h
  unfold checkStep at h
  dsimp only at h
  repeat' split at h
  all_goals first | exact h | exact removeKey_sub _ _ _ h

/-- Reconciliation only ever removes files. -/
theorem checkStep_files_sub (dry : Bool) (st : RecState) (kv : Path × Path) :
    ∀ q, q ∈ (checkStep dry st kv).files → q ∈ st.files := by
  intro q h
  unfold checkStep at h
  dsimp only at h
  repeat' split at h
  all_goals first | exact h | exact removeKey_sub _ _ _ h

/-- Possible deletion outcomes of one reconciliation step: a file removed
by the step was the plan value of the unique basename-matched plan key,
and the byte comparison against the rewritten ledger path succeeded. -/
theorem checkStep_deletions_sound (dry : Bool) (st : RecState) (kv : Path × Path) :
    ∀ f, f ∈ (checkStep dry st kv).deletions → f ∈ st.deletions ∨
      ∃ nk c1 c2, (nk, f) ∈ st.moves ∧ basenameP nk = basenameP kv.1 ∧
        containsSub (basenameP kv.1) nk = true ∧
        lookupP st.files (replaceAll patSorted patPlain kv.1) = some c1 ∧
        lookupP st.files f = some c2 ∧ c1.bytes = c2.bytes ∧ dry = false := by
  intro f h
  unfold checkStep at h
  dsimp only at h
  by_cases he : st.err.isSome
  · rw [if_pos he] at h; exact Or.inl h
  · rw [if_neg he] at h
    by_cases hm : basenameP kv.1 ∈ st.moves.map (fun nf => basenameP nf.1)
    · rw [if_pos hm] at h
      cases hfil : (st.moves.map Prod.fst).filter
          (fun nf => containsSub (basenameP kv.1) nf) with
      | nil => rw [hfil] at h; exact Or.inl h
      | cons ik rest =>
        cases rest with
        | cons ik2 rest2 => rw [hfil] at h; exact Or.inl h
        | nil =>
          rw [hfil] at h
          dsimp only at h
          cases hlk : lookupP st.moves ik with
          | none => rw [hlk] at h; exact Or.inl h
          | some v =>
            rw [hlk] at h
            try dsimp only at h
            cases hex : lookupP st.files (replaceAll patSorted patPlain kv.1) with
            | none => rw [hex] at h; dsimp only at h; exact Or.inl h
            | some c1 =>
              rw [hex] at h
              try dsimp only at h
              cases hv : lookupP st.files v with
              | none => rw [hv] at h; dsimp only at h; exact Or.inl h
              | some c2 =>
                rw [hv] at h
                try dsimp only at h
                by_cases hb : c1.bytes = c2.bytes
                · rw [if_pos hb] at h
                  cases hdry : dry with
                  | true => rw [hdry] at h; simp at h; exact Or.inl h
                  | false =>
                    rw [hdry] at h
                    simp only [Bool.false_eq_true, if_false] at h
                    try dsimp only at h
                    rcases List.mem_append.mp h with h1 | h1
                    · exact Or.inl h1
                    · have hf : f = v := by simpa using h1
                      subst hf
                      obtain ⟨hbn, hcs⟩ := filter_single st (basenameP kv.1) ik hm hfil
                      exact Or.inr ⟨ik, c1, c2, lookupP_mem _ _ _ hlk, hbn, hcs, rfl, hv, hb, rfl⟩
                · rw [if_neg hb] at h
                  exact Or.inl h
    · rw [if_neg hm] at h; exact Or.inl h

/-- Possible comparison outcomes of one reconciliation step: every byte
comparison performed pairs the rewritten ledger path with the plan value
of the unique basename-matched plan key. -/
theorem checkStep_compares_sound (dry : Bool) (st : RecState) (kv : Path × Path) :
    ∀ pr, pr ∈ (checkStep dry st kv).compares → pr ∈ st.compares ∨
      ∃ nk p, (nk, p) ∈ st.moves ∧ basenameP nk = basenameP kv.1 ∧
        containsSub (basenameP kv.1) nk = true ∧
        pr = (replaceAll patSorted patPlain kv.1, p) := by
  intro pr h
  unfold checkStep at h
  dsimp only at h
  by_cases he : st.err.isSome
  · rw [if_pos he] at h; exact Or.inl h
  · rw [if_neg he] at h
    by_cases hm : basenameP kv.1 ∈ st.moves.map (fun nf => basenameP nf.1)
    · rw [if_pos hm] at h
      cases hfil : (st.moves.map Prod.fst).filter
          (fun nf => containsSub (basenameP kv.1) nf) with
      | nil => rw [hfil] at h; exact Or.inl h
      | cons ik rest =>
        cases rest with
        | cons ik2 rest2 => rw [hfil] at h; exact Or.inl h
        | nil =>
          rw [hfil] at h
          dsimp only at h
          cases hlk : lookupP st.moves ik with
          | none => rw [hlk] at h; exact Or.inl h
          | some v =>
            rw [hlk] at h
            try dsimp only at h
            cases hex : lookupP st.files (replaceAll patSorted patPlain kv.1) with
            | none => rw [hex] at h; dsimp only at h; exact Or.inl h
            | some c1 =>
              rw [hex] at h
              try dsimp only at h
              cases hv : lookupP st.files v with
              | none => rw [hv] at h; dsimp only at h; exact Or.inl h
              | some c2 =>
                rw [hv] at h
                try dsimp only at h
                obtain ⟨hbn, hcs⟩ := filter_single st (basenameP kv.1) ik hm hfil
                have hpay : pr ∈ st.compares ++
                    [(replaceAll patSorted patPlain kv.1, v)] →
                    (pr ∈ st.compares ∨ ∃ nk p, (nk, p) ∈ st.moves ∧
                      basenameP nk = basenameP kv.1 ∧
                      containsSub (basenameP kv.1) nk = true ∧
                      pr = (replaceAll patSorted patPlain kv.1, p)) := by
                  intro hx
                  rcases List.mem_append.mp hx with h1 | h1
                  · exact Or.inl h1
                  · exact Or.inr ⟨ik, v, lookupP_mem _ _ _ hlk, hbn, hcs, by simpa using h1⟩
                by_cases hb : c1.bytes = c2.bytes
                · rw [if_pos hb] at h
                  cases hdry : dry with
                  | true => rw [hdry] at h; simp only [if_true] at h; exact hpay h
                  | false =>
                    rw [hdry] at h
                    simp only [Bool.false_eq_true, if_false] at h
                    try dsimp only at h
                    exact hpay h
                · rw [if_neg hb] at h
                  exact hpay h
    · rw [if_neg hm] at h; exact Or.inl h

/-- Basenames of a sublist are among the basenames of the list. -/
theorem basenames_subset (l1 l2 : List (Path × Path))
    (hsub : ∀ e, e ∈ l2 → e ∈ l1) (bn : Path)
    (h : bn ∈ l2.map (fun nf => basenameP nf.1)) :
    bn ∈ l1.map (fun nf => basenameP nf.1) := by
  obtain ⟨nf, hnf, hbn⟩ := List.mem_map.mp h
  exact List.mem_map.mpr ⟨nf, hsub nf hnf, hbn⟩

/-- A run of ledger entries none of whose basenames occur among the plan
basenames leaves the reconciliation state untouched. -/
theorem foldl_checkStep_skip (dry : Bool) :
    ∀ (l : List (Path × Path)) (st : RecState),
      (∀ kv, kv ∈ l → basenameP kv.1 ∉ st.moves.map (fun nf => basenameP nf.1)) →
      List.foldl (checkStep dry) st l = st := by
  intro l
  induction l with
  | nil => intro st _; rfl
  | cons kv rest ih =>
    intro st hs
    rw [List.foldl_cons, checkStep_skip dry st kv (hs kv (List.mem_cons_self kv rest))]
    exact ih st (fun kv2 h2 => hs kv2 (List.mem_cons.mpr (Or.inr h2)))

/-- Deletion soundness along a whole reconciliation run. -/
theorem foldl_deletions_sound (dry : Bool) (m0 : List (Path × Path))
    (files0 : List (Path × Content)) :
    ∀ (old : List (Path × Path)) (st : RecState),
      (∀ e, e ∈ st.moves → e ∈ m0) →
      (∀ q, q ∈ st.files → q ∈ files0) →
      ∀ f, f ∈ (List.foldl (checkStep dry) st old).deletions →
        f ∈ st.deletions ∨
        ∃ k w nk c1 c2, (k, w) ∈ old ∧ (nk, f) ∈ m0 ∧
          basenameP nk = basenameP k ∧ containsSub (basenameP k) nk = true ∧
          (replaceAll patSorted patPlain k, c1) ∈ files0 ∧ (f, c2) ∈ files0 ∧
          c1.bytes = c2.bytes ∧ dry = false := by
  intro old
  induction old with
  | nil => intro st _ _ f hf; exact Or.inl hf
  | cons kv rest ih =>
    intro st hm hq f hf
    rw [List.foldl_cons] at hf
    rcases ih (checkStep dry st kv)
        (fun e he => hm e (checkStep_moves_sub dry st kv e he))
        (fun q hq2 => hq q (checkStep_files_sub dry st kv q hq2)) f hf with h1 | h1
    · rcases checkStep_deletions_sound dry st kv f h1 with h2 | h2
      · exact Or.inl h2
      · obtain ⟨nk, c1, c2, hmem, hbn, hcs, hex, hv, hb, hdry⟩ := h2
        exact Or.inr ⟨kv.1, kv.2, nk, c1, c2, List.mem_cons_self kv rest,
          hm _ hmem, hbn, hcs, hq _ (lookupP_mem _ _ _ hex),
          hq _ (lookupP_mem _ _ _ hv), hb, hdry⟩
    · obtain ⟨k, w, nk, c1, c2, hkw, rest2⟩ := h1
      exact Or.inr ⟨k, w, nk, c1, c2, List.mem_cons.mpr (Or.inr hkw), rest2⟩

/-- Comparison soundness along a whole reconciliation run. -/
theorem foldl_compares_sound (dry : Bool) (m0 : List (Path × Path)) :
    ∀ (old : List (Path × Path)) (st : RecState),
      (∀ e, e ∈ st.moves → e ∈ m0) →
      ∀ pr, pr ∈ (List.foldl (checkStep dry) st old).compares →
        pr ∈ st.compares ∨
        ∃ k w nk p, (k, w) ∈ old ∧ (nk, p) ∈ m0 ∧
          basenameP nk = basenameP k ∧ containsSub (basenameP k) nk = true ∧
          pr = (replaceAll patSorted patPlain k, p) := by
  intro old
  induction old with
  | nil => intro st _ pr hpr; exact Or.inl hpr
  | cons kv rest ih =>
    intro st hm pr hpr
    rw [List.foldl_cons] at hpr
    rcases ih (checkStep dry st kv)
        (fun e he => hm e (checkStep_moves_sub dry st kv e he)) pr hpr with h1 | h1
    · rcases checkStep_compares_sound dry st kv pr h1 with h2 | h2
      · exact Or.inl h2
      · obtain ⟨nk, p, hmem, hbn, hcs, hpr2⟩ := h2
        exact Or.inr ⟨kv.1, kv.2, nk, p, List.mem_cons_self kv rest,
          hm _ hmem, hbn, hcs, hpr2⟩
    · obtain ⟨k, w, nk, p, hkw, rest2⟩ := h1
      exact Or.inr ⟨k, w, nk, p, List.mem_cons.mpr (Or.inr hkw), rest2⟩

/-- A reconciliation step on a unique full-key match with differing byte
contents: the entry leaves the plan, a manual-review report and a
comparison are recorded, nothing is deleted and no exception is raised. -/
theorem checkStep_hit_diff (dry : Bool) (st : RecState) (kv : Path × Path)
    (ik p : Path) (c1 c2 : Content)
    (he : st.err = none)
    (hm : basenameP kv.1 ∈ st.moves.map (fun nf => basenameP nf.1))
    (hfil : (st.moves.map Prod.fst).filter
      (fun nf => containsSub (basenameP kv.1) nf) = [ik])
    (hlk : lookupP st.moves ik = some p)
    (hex : lookupP st.files (replaceAll patSorted patPlain kv.1) = some c1)
    (hin : lookupP st.files p = some c2)
    (hdiff : ¬ c1.bytes = c2.bytes) :
    checkStep dry st kv =
      { st with
          moves := removeKey st.moves ik,
          compares := st.compares ++ [(replaceAll patSorted patPlain kv.1, p)],
          warnings := st.warnings ++ [(replaceAll patSorted patPlain kv.1, p)] } := by
  have he2 : st.err.isSome = false := by rw [he]; rfl
  unfold checkStep
  dsimp only
  rw [he2]
  simp only [Bool.false_eq_true, if_false]
  rw [if_pos hm, hfil]
  dsimp only
  rw [hlk]
  dsimp only
  rw [hex, hin]
  dsimp only
  rw [if_neg hdiff]

/-- A member of a list is smaller than the list. -/
theorem sizeOf_lt_of_mem_tree :
    ∀ (l : List DirTree) (t : DirTree), t ∈ l → sizeOf t < sizeOf l := by
  intro l
  induction l with
  | nil => intro t h; cases h
  | cons a rest ih =>
    intro t h
    rcases List.mem_cons.mp h with h1 | h1
    · subst h1; simp; omega
    · have := ih t h1; simp; omega

/-- Unfolding equation of the forest cleanup on a cons cell. -/
theorem cleanupL_cons (t : DirTree) (ts : List DirTree) :
    cleanupL (t :: ts) =
      ((cleanupT t).1 + (cleanupL ts).1,
        (match (cleanupT t).2 with
         | none => []
         | some u => [u]) ++ (cleanupL ts).2) := by
  simp only [cleanupL]

/-- Unfolding equation of the directory cleanup. -/
theorem cleanupT_mk (fls : List Path) (subs : List DirTree) :
    cleanupT (.mk fls subs) =
      (if fls.isEmpty && (cleanupL subs).2.isEmpty then ((cleanupL subs).1 + 1, none)
       else ((cleanupL subs).1, some (.mk fls (cleanupL subs).2))) := by
  simp only [cleanupT]

/-- Unfolding equation of the directory count. -/
theorem totalDirsT_mk (fls : List Path) (subs : List DirTree) :
    totalDirsT (.mk fls subs) = 1 + totalDirsL subs := by
  simp only [totalDirsT]

/-- Unfolding equation of the forest directory count. -/
theorem totalDirsL_cons (t : DirTree) (ts : List DirTree) :
    totalDirsL (t :: ts) = totalDirsT t + totalDirsL ts := by
  simp only [totalDirsL]

/-- A sibling that survives cleanup keeps the forest remainder
non-empty. -/
theorem cleanupL_remaining_ne (l : List DirTree) (u : DirTree) (hu : u ∈ l)
    (v : DirTree) (hv : (cleanupT u).2 = some v) : (cleanupL l).2 ≠ [] := by
  induction l with
  | nil => cases hu
  | cons a rest ih =>
    rw [cleanupL_cons]
    rcases List.mem_cons.mp hu with h1 | h1
    · subst h1
      rw [hv]
      simp
    · intro hemp
      dsimp only at hemp
      rcases List.append_eq_nil.mp hemp with ⟨_, h3⟩
      exact ih h1 h3

/-- List version: when every sibling is fully removed, the removed count
of the forest is its total directory count. -/
theorem cleanupL_all_removed (l : List DirTree)
    (hA : ∀ t ∈ l, (cleanupT t).2 = none → (cleanupT t).1 = totalDirsT t)
    (hnone : ∀ t ∈ l, (cleanupT t).2 = none) :
    (cleanupL l).2 = [] ∧ (cleanupL l).1 = totalDirsL l := by
  induction l with
  | nil => exact ⟨rfl, rfl⟩
  | cons t ts ih =>
    have ht := hnone t (List.mem_cons_self t ts)
    have hcnt := hA t (List.mem_cons_self t ts) ht
    have ihr := ih (fun u hu => hA u (List.mem_cons.mpr (Or.inr hu)))
      (fun u hu => hnone u (List.mem_cons.mpr (Or.inr hu)))
    rw [cleanupL_cons, ht, ihr.1, hcnt, ihr.2]
    exact ⟨rfl, by rw [totalDirsL_cons]⟩

/-- A directory that cleanup removes contributes its entire directory
count: every nested directory was removed and counted as well. -/
theorem cleanupT_removed_count :
    ∀ (t : DirTree), (cleanupT t).2 = none → (cleanupT t).1 = totalDirsT t := by
  have key : ∀ (n : Nat) (t : DirTree), sizeOf t ≤ n →
      (cleanupT t).2 = none → (cleanupT t).1 = totalDirsT t := by
    intro n
    induction n with
    | zero =>
      intro t hsz
      exfalso
      cases t with
      | mk fls subs => simp at hsz
    | succ n ih =>
      intro t hsz hnone
      cases t with
      | mk fls subs =>
        have hsub : ∀ u ∈ subs, sizeOf u ≤ n := by
          intro u hu
          have h1 := sizeOf_lt_of_mem_tree subs u hu
          have h2 : sizeOf subs < sizeOf (DirTree.mk fls subs) := by simp
          omega
        have hA : ∀ u ∈ subs, (cleanupT u).2 = none → (cleanupT u).1 = totalDirsT u :=
          fun u hu => ih u (hsub u hu)
        rw [cleanupT_mk] at hnone ⊢
        by_cases hc : (fls.isEmpty && (cleanupL subs).2.isEmpty) = true
        · rw [if_pos hc] at hnone ⊢
          have hrem : (cleanupL subs).2 = [] :=
            List.isEmpty_iff.mp ((Bool.and_eq_true _ _).mp hc).2
          have hall : ∀ u ∈ subs, (cleanupT u).2 = none := by
            intro u hu
            cases hr : (cleanupT u).2 with
            | none => rfl
            | some v => exact absurd hrem (cleanupL_remaining_ne subs u hu v hr)
          obtain ⟨_, hcount⟩ := cleanupL_all_removed subs hA hall
          show (cleanupL subs).1 + 1 = totalDirsT (.mk fls subs)
          rw [hcount, totalDirsT_mk]
          omega
        · rw [if_neg hc] at hnone
          cases hnone
  intro t
  exact key (sizeOf t) t (Nat.le_refl _)

/-- Digit characters are digits. -/
theorem digitCh_isDigit (d : Nat) (h : d < 10) : (digitCh d).isDigit = true := by
  interval_cases d <;> decide

/-- Code point of a digit character. -/
theorem digitCh_toNat (d : Nat) (h : d < 10) : (digitCh d).toNat = 48 + d := by
  interval_cases d <;> decide

/-- All characters of a digit expansion are digits. -/
theorem natDigits_digits : ∀ n : Nat, ∀ c ∈ natDigits n, c.isDigit = true := by
  intro n
  induction n using Nat.strong_induction_on with
  | _ n ih =>
    cases n with
    | zero => intro c hc; rw [natDigits_zero] at hc; cases hc
    | succ m =>
      intro c hc
      rw [natDigits_succ] at hc
      rcases List.mem_append.mp hc with h | h
      · exact ih ((m + 1) / 10) (by omega) c h
      · have hc2 : c = digitCh ((m + 1) % 10) := by simpa using h
        rw [hc2]
        exact digitCh_isDigit _ (by omega)

/-- The decimal value of the digit expansion recovers the number. -/
theorem charsVal_natDigits : ∀ n : Nat, charsVal (natDigits n) = n := by
  intro n
  induction n using Nat.strong_induction_on with
  | _ n ih =>
    cases n with
    | zero => rw [natDigits_zero]; rfl
    | succ m =>
      rw [natDigits_succ]
      unfold charsVal
      rw [List.foldl_append]
      have h1 : charsVal (natDigits ((m + 1) / 10)) = (m + 1) / 10 :=
        ih ((m + 1) / 10) (by omega)
      unfold charsVal at h1
      rw [h1]
      show (m + 1) / 10 * 10 + ((digitCh ((m + 1) % 10)).toNat - 48) = m + 1
      rw [digitCh_toNat _ (by omega)]
      omega

/-- The decimal rendering is invertible. -/
theorem charsVal_natToChars (n : Nat) : charsVal (natToChars n) = n := by
  unfold natToChars
  by_cases h : n = 0
  · rw [if_pos h, h]; rfl
  · rw [if_neg h]; exact charsVal_natDigits n

/-- Decimal renderings of distinct numbers are distinct. -/
theorem natToChars_inj (a b : Nat) (h : natToChars a = natToChars b) : a = b := by
  have := congrArg charsVal h
  rwa [charsVal_natToChars, charsVal_natToChars] at this

/-- All characters of a decimal rendering are digits. -/
theorem natToChars_digits (n : Nat) : ∀ c ∈ natToChars n, c.isDigit = true := by
  unfold natToChars
  by_cases h : n = 0
  · rw [if_pos h]; intro c hc; have : c = '0' := by simpa using hc
    rw [this]; decide
  · rw [if_neg h]; exact natDigits_digits n

/-- Decimal renderings are never empty. -/
theorem natToChars_ne_nil (n : Nat) : natToChars n ≠ [] := by
  unfold natToChars
  by_cases h : n = 0
  · rw [if_pos h]; simp
  · rw [if_neg h]
    cases n with
    | zero => exact absurd rfl h
    | succ m => rw [natDigits_succ]; simp

/-- Digits are none of the structural marker characters. -/
theorem isDigit_ne (c : Char) (h : c.isDigit = true) :
    c ≠ '.' ∧ c ≠ 'm' ∧ c ≠ '_' ∧ c ≠ '/' := by
  refine ⟨?_, ?_, ?_, ?_⟩ <;> intro he <;> rw [he] at h <;> exact absurd h (by decide)

/-- Dropping leading satisfied characters stops at the first failure. -/
theorem dropWhile_digits (l r : List Char)
    (h : ∀ c ∈ l, Char.isDigit c = true) (x : Char) (hx : Char.isDigit x = false) :
    (l ++ x :: r).dropWhile Char.isDigit = x :: r := by
  induction l with
  | nil => simp [List.dropWhile, hx]
  | cons c t ih =>
    simp [List.dropWhile, h c (by simp)]
    exact ih (fun d hd => h d (by simp [hd]))

/-- Taking leading satisfied characters stops at the first failure. -/
theorem takeWhile_digits (l r : List Char)
    (h : ∀ c ∈ l, Char.isDigit c = true) (x : Char) (hx : Char.isDigit x = false) :
    (l ++ x :: r).takeWhile Char.isDigit = l := by
  induction l with
  | nil => simp [List.takeWhile, hx]
  | cons c t ih =>
    simp [List.takeWhile, h c (by simp)]
    exact ih (fun d hd => h d (by simp [hd]))

/-- A stem ending in the letter m never equals a stem extended by an
underscore and a digit string. -/
theorem marker_ne (P P2 d : Path) (hP : ∃ q, P = q ++ [ 'm' ])
    (hd : ∀ c ∈ d, c.isDigit = true) : P ≠ P2 ++ '_' :: d := by
  intro he
  obtain ⟨q, rfl⟩ := hP
  have h1 : (List.reverse (q ++ [ 'm' ])).dropWhile Char.isDigit =
      'm' :: q.reverse := by
    rw [show List.reverse (q ++ [ 'm' ]) = 'm' :: q.reverse by simp]
    rw [List.dropWhile_cons]
    simp
  have h2 : (List.reverse (P2 ++ '_' :: d)).dropWhile Char.isDigit =
      '_' :: P2.reverse := by
    rw [show List.reverse (P2 ++ '_' :: d) = d.reverse ++ '_' :: P2.reverse by simp]
    exact dropWhile_digits _ _ (fun c hc => hd c (List.mem_reverse.mp hc)) _ (by decide)
  rw [he] at h1
  rw [h1] at h2
  cases h2

/-- Underscore-digit suffixes split uniquely. -/
theorem suffix_split_inj (P P2 d d2 : Path)
    (hd : ∀ c ∈ d, c.isDigit = true) (hd2 : ∀ c ∈ d2, c.isDigit = true)
    (he : P ++ '_' :: d = P2 ++ '_' :: d2) : P = P2 ∧ d = d2 := by
  have hrev : d.reverse ++ '_' :: P.reverse = d2.reverse ++ '_' :: P2.reverse := by
    have := congrArg List.reverse he
    simpa using this
  have ht : d.reverse = d2.reverse := by
    have t1 := takeWhile_digits d.reverse ('_' :: P.reverse).tail
      (fun c hc => hd c (List.mem_reverse.mp hc)) '_' (by decide)
    have t2 := takeWhile_digits d2.reverse ('_' :: P2.reverse).tail
      (fun c hc => hd2 c (List.mem_reverse.mp hc)) '_' (by decide)
    simp only [List.tail_cons] at t1 t2
    rw [hrev] at t1
    rw [t1] at t2
    exact t2
  have hD : d = d2 := List.reverse_injective ht
  subst hD
  have hP : P.reverse = P2.reverse := by
    have d1 := dropWhile_digits d.reverse P.reverse
      (fun c hc => hd c (List.mem_reverse.mp hc)) '_' (by decide)
    have d2h := dropWhile_digits d.reverse P2.reverse
      (fun c hc => hd c (List.mem_reverse.mp hc)) '_' (by decide)
    rw [hrev] at d1
    rw [d2h] at d1
    exact (by simpa using d1.symm)
  exact ⟨List.reverse_injective hP, rfl⟩

/-- Appends around a character absent from both left parts are unique. -/
theorem append_ch_inj (c : Char) :
    ∀ a a2 b b2 : Path, c ∉ a → c ∉ a2 → a ++ c :: b = a2 ++ c :: b2 →
      a = a2 ∧ b = b2 := by
  intro a
  induction a with
  | nil =>
    intro a2 b b2 _ ha2 he
    cases a2 with
    | nil => simpa using he
    | cons x r =>
      rw [List.nil_append] at he
      have hx : c = x := by
        have := congrArg (fun l => l.headD c) he
        simpa using this
      exact absurd (hx ▸ List.mem_cons_self x r) ha2
  | cons x r ih =>
    intro a2 b b2 ha ha2 he
    cases a2 with
    | nil =>
      rw [List.nil_append] at he
      have hx : x = c := by
        have := congrArg (fun l => l.headD c) he
        simpa using this
      exact absurd (hx ▸ List.mem_cons_self x r) ha
    | cons x2 r2 =>
      have hx : x = x2 := by
        have := congrArg (fun l => l.headD c) he
        simpa using this
      subst hx
      have htl : r ++ c :: b = r2 ++ c :: b2 := by
        have := congrArg List.tail he
        simpa using this
      obtain ⟨h1, h2⟩ := ih r2 b b2 (fun hm => ha (List.mem_cons.mpr (Or.inr hm)))
        (fun hm => ha2 (List.mem_cons.mpr (Or.inr hm))) htl
      exact ⟨by rw [h1], h2⟩

/-- The decomposition of a string at a character its two right parts do
not contain is unique (last-occurrence argument). -/
theorem last_ch_split (c : Char) (d e P E : Path)
    (he : d ++ c :: e = P ++ c :: E) (hd : c ∉ e) (hE : c ∉ E) :
    d = P ∧ e = E := by
  have hrev : e.reverse ++ c :: d.reverse = E.reverse ++ c :: P.reverse := by
    have := congrArg List.reverse he
    simpa using this
  obtain ⟨h1, h2⟩ := append_ch_inj c e.reverse E.reverse d.reverse P.reverse
    (fun hm => hd (List.mem_reverse.mp hm)) (fun hm => hE (List.mem_reverse.mp hm)) hrev
  exact ⟨List.reverse_injective h2, List.reverse_injective h1⟩

/-- The strftime stem ends with the literal letter m. -/
theorem strf_ends_m (t : Timestamp) : ∃ q, strf t = q ++ [ 'm' ] := by
  refine ⟨pad2 t.month ++ str ("_") ++ pad2 t.day ++ str ("_") ++ pad2 t.hour ++
    str ("_") ++ pad2 t.minute ++ str ("_") ++ pad2 t.second ++ str ("__") ++
    natToChars t.day ++ str ("th_of_") ++ monthName t.month ++ str ("_at_") ++
    pad2 t.hour ++ str ("h_") ++ pad2 t.minute, ?_⟩
  rfl

/-- Joining onto a non-empty tail never gives the empty path. -/
theorem joinP_ne_nil (a b : Path) (hb : b ≠ []) : joinP a b ≠ [] := by
  unfold joinP
  by_cases ha : a = []
  · rw [if_pos ha]; exact hb
  · rw [if_neg ha]; simp

/-- The last element with default is a member of a non-empty list. -/
theorem getLastD_mem {α : Type} :
    ∀ (l : List α) (d : α), l ≠ [] → l.getLastD d ∈ l := by
  intro l
  induction l with
  | nil => intro d h; exact absurd rfl h
  | cons a t ih =>
    intro d _
    rw [List.getLastD_cons]
    cases ht : t with
    | nil => simp
    | cons b r =>
      have := ih a (by rw [ht]; simp)
      rw [ht] at this
      exact List.mem_cons.mpr (Or.inr this)

/-- Extracted extensions never contain a dot. -/
theorem extOf_no_dot (p : Path) : '.' ∉ extOf p := by
  unfold extOf
  exact splitOnChar_not_mem '.' (basenameP p) _
    (getLastD_mem _ [] (splitOnChar_ne_nil '.' (basenameP p)))

/-- Decomposition of a computed target path around its final dot. -/
theorem targetName_decomp (out : Path) (t : Timestamp) (ext : Path) :
    targetName out t ext =
      (joinP out (natToChars t.year) ++ '/' :: strf t) ++ '.' :: ext := by
  unfold targetName
  have hA : joinP out (natToChars t.year) ≠ [] :=
    joinP_ne_nil out _ (natToChars_ne_nil t.year)
  generalize joinP out (natToChars t.year) = A at hA ⊢
  unfold joinP
  rw [if_neg hA]
  simp

/-- Every computed target path has the good-key shape. -/
theorem targetName_good (out : Path) (t : Timestamp) (p : Path) :
    GoodKey (targetName out t (extOf p)) := by
  obtain ⟨q, hq⟩ := strf_ends_m t
  refine ⟨joinP out (natToChars t.year) ++ '/' :: strf t, extOf p,
    targetName_decomp out t (extOf p), ⟨joinP out (natToChars t.year) ++ '/' :: q, ?_⟩,
    extOf_no_dot p⟩
  rw [hq]
  simp

/-- Indices enumerated from s are at least s. -/
theorem enumFromP_fst_ge {α : Type} :
    ∀ (l : List α) (s j : Nat) (x : α), (j, x) ∈ enumFromP s l → s ≤ j := by
  intro l
  induction l with
  | nil => intro s j x h; cases h
  | cons a t ih =>
    intro s j x h
    unfold enumFromP at h
    rcases List.mem_cons.mp h with h1 | h1
    · injection h1 with h2 _
      omega
    · have := ih (s + 1) j x h1
      omega

/-- Keys built from enumerated indices through an injective function are
pairwise distinct. -/
theorem enum_key_nodup {α : Type} (f : Nat → Path)
    (hf : ∀ i j, f i = f j → i = j) :
    ∀ (l : List α) (s : Nat), ((enumFromP s l).map (fun x => f x.1)).Nodup := by
  intro l
  induction l with
  | nil => intro s; simp [enumFromP]
  | cons a t ih =>
    intro s
    unfold enumFromP
    rw [List.map_cons]
    refine List.nodup_cons.mpr ⟨?_, ih (s + 1)⟩
    intro hmem
    obtain ⟨jx, hjx, hkey⟩ := List.mem_map.mp hmem
    have hj := enumFromP_fst_ge t (s + 1) jx.1 jx.2 (by exact hjx)
    have := hf jx.1 s hkey
    omega

/-- Characterization of the keys produced for one group. -/
theorem expand_key_mem (g : Path × List Path) (lg : List (Path × Path)) (k : Path)
    (h : expandGroup g = .ok lg) (hk : k ∈ lg.map Prod.fst) :
    k = g.1 ∨ ∃ d e i, splitOnChar '.' g.1 = [d, e] ∧
      k = d ++ '_' :: natToChars (i + 1) ++ '.' :: e := by
  unfold expandGroup at h
  by_cases hl : g.2.length = 1
  · rw [if_pos hl] at h
    injection h with h2
    rw [h2.symm] at hk
    simp at hk
    exact Or.inl hk
  · rw [if_neg hl] at h
    cases hsp : splitOnChar '.' g.1 with
    | nil => rw [hsp] at h; cases h
    | cons d rest =>
      cases rest with
      | nil => rw [hsp] at h; cases h
      | cons e rest2 =>
        cases rest2 with
        | cons x r => rw [hsp] at h; cases h
        | nil =>
          rw [hsp] at h
          injection h with h2
          rw [h2.symm] at hk
          rw [List.map_map] at hk
          obtain ⟨fi, hfi, hkey⟩ := List.mem_map.mp hk
          exact Or.inr ⟨d, e, fi.1, rfl, hkey.symm⟩

/-- The keys produced for one group are pairwise distinct. -/
theorem expand_keys_nodup (g : Path × List Path) (lg : List (Path × Path))
    (h : expandGroup g = .ok lg) : (lg.map Prod.fst).Nodup := by
  unfold expandGroup at h
  by_cases hl : g.2.length = 1
  · rw [if_pos hl] at h
    injection h with h2
    rw [h2.symm]
    simp
  · rw [if_neg hl] at h
    cases hsp : splitOnChar '.' g.1 with
    | nil => rw [hsp] at h; cases h
    | cons d rest =>
      cases rest with
      | nil => rw [hsp] at h; cases h
      | cons e rest2 =>
        cases rest2 with
        | cons x r => rw [hsp] at h; cases h
        | nil =>
          rw [hsp] at h
          injection h with h2
          rw [h2.symm, List.map_map]
          have hinj : ∀ i j : Nat,
              (fun i2 => d ++ '_' :: natToChars (i2 + 1) ++ '.' :: e) i =
              (fun i2 => d ++ '_' :: natToChars (i2 + 1) ++ '.' :: e) j → i = j := by
            intro i j hij
            dsimp at hij
            have h3 : ('_' : Char) :: natToChars (i + 1) ++ '.' :: e =
                '_' :: natToChars (j + 1) ++ '.' :: e := by
              simpa using hij
            have h4 : natToChars (i + 1) ++ '.' :: e =
                natToChars (j + 1) ++ '.' :: e := by
              simpa using h3
            have h5 := append_ch_inj '.' (natToChars (i + 1)) (natToChars (j + 1)) e e
              (fun hm => (isDigit_ne _ (natToChars_digits _ _ hm)).1 rfl)
              (fun hm => (isDigit_ne _ (natToChars_digits _ _ hm)).1 rfl) h4
            have := natToChars_inj (i + 1) (j + 1) h5.1
            omega
          exact enum_key_nodup _ hinj g.2 0

/-- A good key together with a successful two-way split determines the
split: the left part is the stem ending in m, the right the extension. -/
theorem split_of_good (nn d e : Path) (hg : GoodKey nn)
    (hsp : splitOnChar '.' nn = [d, e]) :
    (∃ q, d = q ++ [ 'm' ]) ∧ nn = d ++ '.' :: e ∧ '.' ∉ e := by
  obtain ⟨P, E, hnn, hPm, hE⟩ := hg
  have hde : nn = d ++ '.' :: e := splitOnChar_two '.' nn d e hsp
  have hdnot : '.' ∉ e := splitOnChar_not_mem '.' nn e (by rw [hsp]; simp)
  have heq : d ++ '.' :: e = P ++ '.' :: E := by rw [hde.symm, hnn]
  obtain ⟨h1, _⟩ := last_ch_split '.' d e P E heq hdnot hE
  exact ⟨h1 ▸ hPm, hde, hdnot⟩

/-- Keys produced for two distinct good groups never collide. -/
theorem expand_keys_clash (g1 g2 : Path × List Path)
    (lg1 lg2 : List (Path × Path))
    (h1 : expandGroup g1 = .ok lg1) (h2 : expandGroup g2 = .ok lg2)
    (hg1 : GoodKey g1.1) (hg2 : GoodKey g2.1) (hne : g1.1 ≠ g2.1)
    (k : Path) (hk1 : k ∈ lg1.map Prod.fst) (hk2 : k ∈ lg2.map Prod.fst) :
    False := by
  obtain ⟨P1, E1, hnn1, hPm1, hE1⟩ := hg1
  obtain ⟨P2, E2, hnn2, hPm2, hE2⟩ := hg2
  rcases expand_key_mem g1 lg1 k h1 hk1 with hc1 | ⟨d1, e1, i1, hsp1, hc1⟩ <;>
    rcases expand_key_mem g2 lg2 k h2 hk2 with hc2 | ⟨d2, e2, i2, hsp2, hc2⟩
  · exact hne (by rw [hc1.symm, hc2])
  · obtain ⟨⟨q2, hq2⟩, hde2, hdot2⟩ := split_of_good g2.1 d2 e2 ⟨P2, E2, hnn2, hPm2, hE2⟩ hsp2
    have hk : P1 ++ '.' :: E1 = (d2 ++ '_' :: natToChars (i2 + 1)) ++ '.' :: e2 := by
      rw [hnn1.symm, hc1.symm, hc2]
    obtain ⟨hL, _⟩ := last_ch_split '.' P1 E1 (d2 ++ '_' :: natToChars (i2 + 1)) e2 hk hE1 hdot2
    exact marker_ne P1 d2 (natToChars (i2 + 1)) hPm1 (natToChars_digits _) hL
  · obtain ⟨⟨q1, hq1⟩, hde1, hdot1⟩ := split_of_good g1.1 d1 e1 ⟨P1, E1, hnn1, hPm1, hE1⟩ hsp1
    have hk : P2 ++ '.' :: E2 = (d1 ++ '_' :: natToChars (i1 + 1)) ++ '.' :: e1 := by
      rw [hnn2.symm, hc2.symm, hc1]
    obtain ⟨hL, _⟩ := last_ch_split '.' P2 E2 (d1 ++ '_' :: natToChars (i1 + 1)) e1 hk hE2 hdot1
    exact marker_ne P2 d1 (natToChars (i1 + 1)) hPm2 (natToChars_digits _) hL
  · obtain ⟨⟨q1, hq1⟩, hde1, hdot1⟩ := split_of_good g1.1 d1 e1 ⟨P1, E1, hnn1, hPm1, hE1⟩ hsp1
    obtain ⟨⟨q2, hq2⟩, hde2, hdot2⟩ := split_of_good g2.1 d2 e2 ⟨P2, E2, hnn2, hPm2, hE2⟩ hsp2
    have hk : (d1 ++ '_' :: natToChars (i1 + 1)) ++ '.' :: e1 =
        (d2 ++ '_' :: natToChars (i2 + 1)) ++ '.' :: e2 := by
      rw [show (d1 ++ '_' :: natToChars (i1 + 1)) ++ '.' :: e1 =
          d1 ++ '_' :: natToChars (i1 + 1) ++ '.' :: e1 by simp]
      rw [show (d2 ++ '_' :: natToChars (i2 + 1)) ++ '.' :: e2 =
          d2 ++ '_' :: natToChars (i2 + 1) ++ '.' :: e2 by simp]
      rw [hc1.symm, hc2]
    obtain ⟨hL, hR⟩ := last_ch_split '.' _ e1 _ e2 hk hdot1 hdot2
    obtain ⟨hd12, _⟩ := suffix_split_inj d1 d2 (natToChars (i1 + 1)) (natToChars (i2 + 1))
      (natToChars_digits _) (natToChars_digits _) hL
    exact hne (by rw [hde1, hde2, hd12, hR])

/-- Every key of the flattened plan arises from some group. -/
theorem mapEx_flatten_mem (gs : List (Path × List Path))
    (ls : List (List (Path × Path)))
    (h : mapEx expandGroup gs = .ok ls) (k : Path)
    (hk : k ∈ ls.flatten.map Prod.fst) :
    ∃ g lg, g ∈ gs ∧ expandGroup g = .ok lg ∧ k ∈ lg.map Prod.fst := by
  induction gs generalizing ls with
  | nil =>
    unfold mapEx at h
    injection h with h2
    rw [h2.symm] at hk
    simp at hk
  | cons g gs2 ih =>
    unfold mapEx at h
    cases hE : expandGroup g with
    | error e => rw [hE] at h; cases h
    | ok lg =>
      rw [hE] at h
      cases hM : mapEx expandGroup gs2 with
      | error e => rw [hM] at h; cases h
      | ok ls2 =>
        rw [hM] at h
        injection h with h2
        rw [h2.symm] at hk
        rw [List.flatten_cons, List.map_append] at hk
        rcases List.mem_append.mp hk with hk1 | hk1
        · exact ⟨g, lg, List.mem_cons_self g gs2, hE, hk1⟩
        · obtain ⟨g2, lg2, hg2, hE2, hk2⟩ := ih ls2 hM hk1
          exact ⟨g2, lg2, List.mem_cons.mpr (Or.inr hg2), hE2, hk2⟩

/-- Keys of the whole flattened plan are pairwise distinct when the group
keys are distinct and well-shaped. -/
theorem mapEx_expand_nodup (gs : List (Path × List Path)) :
    ∀ (ls : List (List (Path × Path))),
      mapEx expandGroup gs = .ok ls →
      (gs.map Prod.fst).Nodup →
      (∀ g ∈ gs, GoodKey g.1) →
      (ls.flatten.map Prod.fst).Nodup := by
  induction gs with
  | nil =>
    intro ls h _ _
    unfold mapEx at h
    injection h with h2
    rw [h2.symm]
    simp
  | cons g gs2 ih =>
    intro ls h hnd hgood
    unfold mapEx at h
    cases hE : expandGroup g with
    | error e => rw [hE] at h; cases h
    | ok lg =>
      rw [hE] at h
      cases hM : mapEx expandGroup gs2 with
      | error e => rw [hM] at h; cases h
      | ok ls2 =>
        rw [hM] at h
        injection h with h2
        rw [h2.symm]
        rw [List.flatten_cons, List.map_append]
        rw [List.map_cons] at hnd
        have hnd2 := List.nodup_cons.mp hnd
        refine List.Nodup.append
          (expand_keys_nodup g lg hE)
          (ih ls2 hM hnd2.2 (fun g2 hg2 => hgood g2 (List.mem_cons.mpr (Or.inr hg2))))
          ?_
        intro k hk1 hk2
        obtain ⟨g2, lg2, hg2, hE2, hkg2⟩ := mapEx_flatten_mem gs2 ls2 hM k hk2
        have hne : g.1 ≠ g2.1 := by
          intro hcontra
          exact hnd2.1 (List.mem_map.mpr ⟨g2, hg2, hcontra.symm⟩)
        exact expand_keys_clash g g2 lg lg2 hE hE2
          (hgood g (List.mem_cons_self g gs2))
          (hgood g2 (List.mem_cons.mpr (Or.inr hg2))) hne k hk1 hkg2

/-- Keys after one grouping step: unchanged when present, else appended. -/
theorem addPic_keys (acc : List (Path × List Path)) (k p : Path) :
    (addPic acc k p).map Prod.fst =
      if k ∈ acc.map Prod.fst then acc.map Prod.fst
      else acc.map Prod.fst ++ [k] := by
  induction acc with
  | nil => simp [addPic]
  | cons g t ih =>
    cases g with
    | mk k0 ps =>
      unfold addPic
      by_cases hk : k0 = k
      · subst hk
        simp
      · rw [if_neg hk]
        rw [List.map_cons, List.map_cons, ih]
        by_cases hmem : k ∈ t.map Prod.fst
        · rw [if_pos hmem, if_pos (List.mem_cons.mpr (Or.inr hmem))]
        · have hnotin : ¬ k ∈ k0 :: t.map Prod.fst := by
            intro hc
            rcases List.mem_cons.mp hc with h1 | h1
            · exact hk h1.symm
            · exact hmem h1
          rw [if_neg hmem, if_neg hnotin]
          simp

/-- Grouping keeps keys pairwise distinct. -/
theorem groupPics_keys_nodup (pics : List (Timestamp × Path)) (out : Path) :
    ((groupPics pics out).map Prod.fst).Nodup := by
  unfold groupPics
  suffices h : ∀ (l : List (Timestamp × Path)) (acc : List (Path × List Path)),
      (acc.map Prod.fst).Nodup →
      ((l.foldl (fun acc2 tp =>
        addPic acc2 (targetName out tp.1 (extOf tp.2)) tp.2) acc).map Prod.fst).Nodup by
    exact h pics [] (by simp)
  intro l
  induction l with
  | nil => intro acc h; exact h
  | cons tp rest ih =>
    intro acc h
    rw [List.foldl_cons]
    refine ih _ ?_
    rw [addPic_keys]
    by_cases hmem : targetName out tp.1 (extOf tp.2) ∈ acc.map Prod.fst
    · rw [if_pos hmem]; exact h
    · rw [if_neg hmem]
      exact List.Nodup.append h (List.nodup_singleton _)
        (fun x hx hx2 => hmem ((List.mem_singleton.mp hx2) ▸ hx))

/-- Every grouping key is a computed target path, hence well-shaped. -/
theorem groupPics_key_good (pics : List (Timestamp × Path)) (out : Path) :
    ∀ g ∈ groupPics pics out, GoodKey g.1 := by
  unfold groupPics
  suffices h : ∀ (l : List (Timestamp × Path)) (acc : List (Path × List Path)),
      (∀ g ∈ acc, GoodKey g.1) →
      ∀ g ∈ (l.foldl (fun acc2 tp =>
        addPic acc2 (targetName out tp.1 (extOf tp.2)) tp.2) acc), GoodKey g.1 by
    exact h pics [] (by simp)
  intro l
  induction l with
  | nil => intro acc h; exact h
  | cons tp rest ih =>
    intro acc h
    rw [List.foldl_cons]
    refine ih _ ?_
    suffices haux : ∀ (acc2 : List (Path × List Path)) (k p : Path),
        (∀ g ∈ acc2, GoodKey g.1) → GoodKey k →
        ∀ g ∈ addPic acc2 k p, GoodKey g.1 by
      exact haux acc _ tp.2 h (targetName_good out tp.1 tp.2)
    intro acc2
    induction acc2 with
    | nil =>
      intro k p _ hk g hg
      have : g = (k, [p]) := by simpa [addPic] using hg
      rw [this]
      exact hk
    | cons g0 t2 ih2 =>
      intro k p hall hk g hg
      cases g0 with
      | mk k0 ps =>
        unfold addPic at hg
        by_cases hk0 : k0 = k
        · rw [if_pos hk0] at hg
          rcases List.mem_cons.mp hg with h1 | h1
          · rw [h1]
            exact hall (k0, ps) (List.mem_cons_self _ _)
          · exact hall g (List.mem_cons.mpr (Or.inr h1))
        · rw [if_neg hk0] at hg
          rcases List.mem_cons.mp hg with h1 | h1
          · rw [h1]
            exact hall (k0, ps) (List.mem_cons_self _ _)
          · exact ih2 k p (fun g2 hg2 => hall g2 (List.mem_cons.mpr (Or.inr hg2))) hk g h1

/-- Keys of a successfully built plan are pairwise distinct. -/
theorem create_moves_nodup_helper (pics : List (Timestamp × Path)) (out : Path)
    (mvs : List (Path × Path)) (h : create_moves pics out = .ok mvs) :
    (mvs.map Prod.fst).Nodup := by
  unfold create_moves at h
  cases hM : mapEx expandGroup (groupPics pics out) with
  | error e => rw [hM] at h; cases h
  | ok ls =>
    rw [hM] at h
    injection h with h2
    rw [h2.symm]
    exact mapEx_expand_nodup (groupPics pics out) ls hM
      (groupPics_keys_nodup pics out) (groupPics_key_good pics out)

/-- Enumeration preserves the underlying values. -/
theorem enumFromP_map_snd {α : Type} :
    ∀ (l : List α) (s : Nat), (enumFromP s l).map Prod.snd = l := by
  intro l
  induction l with
  | nil => intro s; rfl
  | cons a t ih =>
    intro s
    unfold enumFromP
    rw [List.map_cons, ih]

/-- Every file of a group appears among the values produced for it. -/
theorem expand_values (g : Path × List Path) (lg : List (Path × Path))
    (h : expandGroup g = .ok lg) : ∀ p ∈ g.2, p ∈ lg.map Prod.snd := by
  unfold expandGroup at h
  by_cases hl : g.2.length = 1
  · rw [if_pos hl] at h
    injection h with h2
    obtain ⟨f, hf⟩ := List.length_eq_one.mp hl
    intro p hp
    rw [hf] at hp
    have hpf : p = f := by simpa using hp
    rw [h2.symm, hf, hpf]
    simp
  · rw [if_neg hl] at h
    cases hsp : splitOnChar '.' g.1 with
    | nil => rw [hsp] at h; cases h
    | cons d rest =>
      cases rest with
      | nil => rw [hsp] at h; cases h
      | cons e rest2 =>
        cases rest2 with
        | cons x r => rw [hsp] at h; cases h
        | nil =>
          rw [hsp] at h
          injection h with h2
          intro p hp
          rw [h2.symm, List.map_map]
          have : ((enumFromP 0 g.2).map
              (Prod.snd ∘ fun fi => (d ++ '_' :: natToChars (fi.1 + 1) ++ '.' :: e, fi.2))) =
              (enumFromP 0 g.2).map Prod.snd := by
            simp
          rw [this, enumFromP_map_snd]
          exact hp

/-- A successful error-propagating map succeeds on every member. -/
theorem mapEx_mem_ok {α β : Type} (f : α → Except String β) :
    ∀ (l : List α) (ls : List β), mapEx f l = .ok ls →
      ∀ a ∈ l, ∃ b ∈ ls, f a = .ok b := by
  intro l
  induction l with
  | nil => intro ls _ a ha; cases ha
  | cons x xs ih =>
    intro ls h a ha
    unfold mapEx at h
    cases hx : f x with
    | error e => rw [hx] at h; cases h
    | ok y =>
      rw [hx] at h
      cases hm : mapEx f xs with
      | error e => rw [hm] at h; cases h
      | ok ys =>
        rw [hm] at h
        injection h with h2
        rcases List.mem_cons.mp ha with h1 | h1
        · exact ⟨y, by rw [h2.symm]; simp, by rw [h1, hx]⟩
        · obtain ⟨b, hb, hfb⟩ := ih ys hm a h1
          exact ⟨b, by rw [h2.symm]; exact List.mem_cons.mpr (Or.inr hb), hfb⟩

/-- A pic lands in some group of one insertion step. -/
theorem addPic_val_in (acc : List (Path × List Path)) (k p : Path) :
    ∃ g ∈ addPic acc k p, p ∈ g.2 := by
  induction acc with
  | nil => exact ⟨(k, [p]), by simp [addPic]⟩
  | cons g0 t ih =>
    cases g0 with
    | mk k0 ps =>
      unfold addPic
      by_cases hk : k0 = k
      · rw [if_pos hk]
        exact ⟨(k0, ps ++ [p]), List.mem_cons_self _ _, by simp⟩
      · rw [if_neg hk]
        obtain ⟨g, hg, hpg⟩ := ih
        exact ⟨g, List.mem_cons.mpr (Or.inr hg), hpg⟩

/-- Insertion preserves values already grouped. -/
theorem addPic_val_pres (acc : List (Path × List Path)) (k p q : Path)
    (g : Path × List Path) (hg : g ∈ acc) (hq : q ∈ g.2) :
    ∃ g2 ∈ addPic acc k p, q ∈ g2.2 := by
  induction acc with
  | nil => cases hg
  | cons g0 t ih =>
    cases g0 with
    | mk k0 ps =>
      unfold addPic
      by_cases hk : k0 = k
      · rw [if_pos hk]
        rcases List.mem_cons.mp hg with h1 | h1
        · refine ⟨(k0, ps ++ [p]), List.mem_cons_self _ _, ?_⟩
          rw [h1] at hq
          simp at hq
          simp [hq]
        · exact ⟨g, List.mem_cons.mpr (Or.inr h1), hq⟩
      · rw [if_neg hk]
        rcases List.mem_cons.mp hg with h1 | h1
        · exact ⟨(k0, ps), List.mem_cons_self _ _, by rw [h1] at hq; exact hq⟩
        · obtain ⟨g2, hg2, hq2⟩ := ih h1
          exact ⟨g2, List.mem_cons.mpr (Or.inr hg2), hq2⟩

/-- Values grouped so far survive the rest of the grouping fold. -/
theorem foldl_group_pres (out : Path) :
    ∀ (l : List (Timestamp × Path)) (acc : List (Path × List Path)) (q : Path),
      (∃ g ∈ acc, q ∈ g.2) →
      ∃ g ∈ l.foldl (fun acc2 tp =>
        addPic acc2 (targetName out tp.1 (extOf tp.2)) tp.2) acc, q ∈ g.2 := by
  intro l
  induction l with
  | nil => intro acc q h; exact h
  | cons tp rest ih =>
    intro acc q h
    rw [List.foldl_cons]
    obtain ⟨g, hg, hq⟩ := h
    exact ih _ q (addPic_val_pres acc _ tp.2 q g hg hq)

/-- Every pic is grouped. -/
theorem groupPics_covers (pics : List (Timestamp × Path)) (out : Path) :
    ∀ tp ∈ pics, ∃ g ∈ groupPics pics out, tp.2 ∈ g.2 := by
  unfold groupPics
  suffices h : ∀ (l : List (Timestamp × Path)) (acc : List (Path × List Path)),
      ∀ tp ∈ l, ∃ g ∈ l.foldl (fun acc2 tp2 =>
        addPic acc2 (targetName out tp2.1 (extOf tp2.2)) tp2.2) acc, tp.2 ∈ g.2 by
    intro tp htp
    exact h pics [] tp htp
  intro l
  induction l with
  | nil => intro acc tp htp; cases htp
  | cons hd rest ih =>
    intro acc tp htp
    rw [List.foldl_cons]
    rcases List.mem_cons.mp htp with h1 | h1
    · rw [h1]
      exact foldl_group_pres out rest _ hd.2 (addPic_val_in acc _ hd.2)
    · exact ih _ tp h1

/-- Every pic path appears among the values of a successful plan. -/
theorem create_moves_values (pics : List (Timestamp × Path)) (out : Path)
    (mvs : List (Path × Path)) (h : create_moves pics out = .ok mvs) :
    ∀ tp ∈ pics, tp.2 ∈ mvs.map Prod.snd := by
  intro tp htp
  unfold create_moves at h
  cases hM : mapEx expandGroup (groupPics pics out) with
  | error e => rw [hM] at h; cases h
  | ok ls =>
    rw [hM] at h
    injection h with h2
    obtain ⟨g, hg, hv⟩ := groupPics_covers pics out tp htp
    obtain ⟨lg, hlg, hok⟩ := mapEx_mem_ok expandGroup (groupPics pics out) ls hM g hg
    have hin := expand_values g lg hok tp.2 hv
    obtain ⟨e2, he2, hsnd⟩ := List.mem_map.mp hin
    rw [h2.symm]
    exact List.mem_map.mpr ⟨e2, List.mem_flatten.mpr ⟨lg, hlg, he2⟩, hsnd⟩

/-- Every grouping key is a computed target path. -/
theorem groupPics_key_target (pics : List (Timestamp × Path)) (out : Path) :
    ∀ g ∈ groupPics pics out, ∃ t pth, g.1 = targetName out t (extOf pth) := by
  unfold groupPics
  suffices h : ∀ (l : List (Timestamp × Path)) (acc : List (Path × List Path)),
      (∀ g ∈ acc, ∃ t pth, g.1 = targetName out t (extOf pth)) →
      ∀ g ∈ (l.foldl (fun acc2 tp =>
        addPic acc2 (targetName out tp.1 (extOf tp.2)) tp.2) acc),
        ∃ t pth, g.1 = targetName out t (extOf pth) by
    exact h pics [] (by simp)
  intro l
  induction l with
  | nil => intro acc h; exact h
  | cons tp rest ih =>
    intro acc h
    rw [List.foldl_cons]
    refine ih _ ?_
    suffices haux : ∀ (acc2 : List (Path × List Path)) (k p : Path),
        (∀ g ∈ acc2, ∃ t pth, g.1 = targetName out t (extOf pth)) →
        (∃ t pth, k = targetName out t (extOf pth)) →
        ∀ g ∈ addPic acc2 k p, ∃ t pth, g.1 = targetName out t (extOf pth) by
      exact haux acc _ tp.2 h ⟨tp.1, tp.2, rfl⟩
    intro acc2
    induction acc2 with
    | nil =>
      intro k p _ hk g hg
      have : g = (k, [p]) := by simpa [addPic] using hg
      rw [this]
      exact hk
    | cons g0 t2 ih2 =>
      intro k p hall hk g hg
      cases g0 with
      | mk k0 ps =>
        unfold addPic at hg
        by_cases hk0 : k0 = k
        · rw [if_pos hk0] at hg
          rcases List.mem_cons.mp hg with h1 | h1
          · rw [h1]
            exact hall (k0, ps) (List.mem_cons_self _ _)
          · exact hall g (List.mem_cons.mpr (Or.inr h1))
        · rw [if_neg hk0] at hg
          rcases List.mem_cons.mp hg with h1 | h1
          · rw [h1]
            exact hall (k0, ps) (List.mem_cons_self _ _)
          · exact ih2 k p (fun g2 hg2 => hall g2 (List.mem_cons.mpr (Or.inr hg2))) hk g h1

/-- A prefix test holds for anything of the right shape. -/
theorem begWith_of_eq (a x r : Path) (h : x = a ++ r) : begWith a x = true := by
  rw [h]
  exact begWith_append a r

/-- Computed target paths live below the output directory. -/
theorem targetName_begWith (out : Path) (hout : out ≠ []) (t : Timestamp)
    (ext : Path) :
    targetName out t ext = (out ++ [ '/' ]) ++
      (natToChars t.year ++ '/' :: strf t ++ '.' :: ext) := by
  rw [targetName_decomp]
  show (joinP out (natToChars t.year) ++ '/' :: strf t) ++ '.' :: ext = _
  unfold joinP
  rw [if_neg hout]
  simp

/-- Every key of a successful plan lies below the output directory. -/
theorem create_moves_keys_begWith (pics : List (Timestamp × Path)) (out : Path)
    (hout : out ≠ []) (mvs : List (Path × Path))
    (h : create_moves pics out = .ok mvs) :
    ∀ k ∈ mvs.map Prod.fst, begWith (out ++ [ '/' ]) k = true := by
  intro k hk
  unfold create_moves at h
  cases hM : mapEx expandGroup (groupPics pics out) with
  | error e => rw [hM] at h; cases h
  | ok ls =>
    rw [hM] at h
    injection h with h2
    rw [h2.symm] at hk
    obtain ⟨g, lg, hg, hok, hkg⟩ := mapEx_flatten_mem (groupPics pics out) ls hM k hk
    obtain ⟨t, pth, htg⟩ := groupPics_key_target pics out g hg
    rcases expand_key_mem g lg k hok hkg with hc | ⟨d, e, i, hsp, hc⟩
    · rw [hc, htg]
      exact begWith_of_eq _ _ _ (targetName_begWith out hout t (extOf pth))
    · have hde : g.1 = d ++ '.' :: e := splitOnChar_two '.' g.1 d e hsp
      have hdote : '.' ∉ e := splitOnChar_not_mem '.' g.1 e (by rw [hsp]; simp)
      have heq : d ++ '.' :: e =
          (joinP out (natToChars t.year) ++ '/' :: strf t) ++ '.' :: extOf pth := by
        rw [hde.symm, htg, targetName_decomp]
      obtain ⟨hd, _⟩ := last_ch_split '.' d e _ (extOf pth) heq hdote (extOf_no_dot pth)
      have hd2 : d = (out ++ [ '/' ]) ++ (natToChars t.year ++ '/' :: strf t) := by
        rw [hd]
        show joinP out (natToChars t.year) ++ '/' :: strf t = _
        unfold joinP
        rw [if_neg hout]
        simp
      refine begWith_of_eq _ k
        ((natToChars t.year ++ '/' :: strf t) ++ '_' :: natToChars (i + 1) ++ '.' :: e) ?_
      rw [hc, hd2]
      simp

/-- Lookup of a present key in a dup-free association list. -/
theorem nodup_lookup {α : Type} :
    ∀ (l : List (Path × α)), (l.map Prod.fst).Nodup →
      ∀ (k : Path) (v : α), (k, v) ∈ l → lookupP l k = some v := by
  intro l
  induction l with
  | nil => intro _ k v hm; cases hm
  | cons kv t ih =>
    intro hnd k v hm
    rw [List.map_cons] at hnd
    have hnd2 := List.nodup_cons.mp hnd
    unfold lookupP
    by_cases hk : kv.1 = k
    · rw [if_pos hk]
      rcases List.mem_cons.mp hm with h1 | h1
      · rw [(congrArg Prod.snd h1).symm]
      · exfalso
        apply hnd2.1
        rw [hk]
        exact List.mem_map.mpr ⟨(k, v), h1, rfl⟩
    · rw [if_neg hk]
      rcases List.mem_cons.mp hm with h1 | h1
      · exact absurd (congrArg Prod.fst h1).symm hk
      · exact ih hnd2.2 k v h1

/-- Key removal is a sublist. -/
theorem removeKey_sublist {α : Type} :
    ∀ (l : List (Path × α)) (k : Path), (removeKey l k).Sublist l := by
  intro l
  induction l with
  | nil => intro k; simp [removeKey]
  | cons kv t ih =>
    intro k
    unfold removeKey
    by_cases hk : kv.1 = k
    · rw [if_pos hk]
      exact List.Sublist.cons kv (ih k)
    · rw [if_neg hk]
      exact List.Sublist.cons₂ kv (ih k)

/-- The plan stays dup-free across one reconciliation step. -/
theorem checkStep_moves_nodup (dry : Bool) (st : RecState) (kv : Path × Path)
    (h : (st.moves.map Prod.fst).Nodup) :
    (((checkStep dry st kv).moves).map Prod.fst).Nodup := by
  unfold checkStep
  dsimp only
  repeat' split
  all_goals first
    | exact h
    | exact List.Nodup.sublist ((removeKey_sublist st.moves _).map Prod.fst) h

/-- One reconciliation step keeps a pending exception or creates one,
never clears it. -/
theorem checkStep_err_none (dry : Bool) (st : RecState) (kv : Path × Path)
    (h : (checkStep dry st kv).err = none) : st.err = none := by
  by_cases he : st.err.isSome
  · rw [checkStep_frozen dry st kv he] at h
    exact h
  · simpa using he

/-- Recorded warnings survive one reconciliation step. -/
theorem checkStep_warnings_mono (dry : Bool) (st : RecState) (kv : Path × Path)
    (x : Path × Path) (h : x ∈ st.warnings) : x ∈ (checkStep dry st kv).warnings := by
  unfold checkStep
  dsimp only
  repeat' split
  all_goals first | exact h | exact List.mem_append.mpr (Or.inl h)

/-- Exhaustive outcomes of one reconciliation step. -/
theorem checkStep_cases (dry : Bool) (st : RecState) (kv : Path × Path) :
    checkStep dry st kv = st ∨
    (∃ msg m2, checkStep dry st kv = { st with moves := m2, err := some msg } ∧
      (m2 = st.moves ∨ ∃ ik, m2 = removeKey st.moves ik)) ∨
    (∃ ik v ex, lookupP st.moves ik = some v ∧
      ((dry = true ∧ checkStep dry st kv =
        { st with moves := removeKey st.moves ik,
                  compares := st.compares ++ [(ex, v)] }) ∨
       checkStep dry st kv =
        { st with moves := removeKey st.moves ik,
                  compares := st.compares ++ [(ex, v)],
                  warnings := st.warnings ++ [(ex, v)] } ∨
       (dry = false ∧ checkStep dry st kv =
        { st with moves := removeKey st.moves ik,
                  files := removeKey st.files v,
                  deletedCount := st.deletedCount + 1,
                  deletions := st.deletions ++ [v],
                  compares := st.compares ++ [(ex, v)] }))) := by
  unfold checkStep
  dsimp only
  by_cases he : st.err.isSome
  · rw [if_pos he]
    exact Or.inl rfl
  · rw [if_neg he]
    by_cases hm : basenameP kv.1 ∈ st.moves.map (fun nf => basenameP nf.1)
    · rw [if_pos hm]
      cases hfil : (st.moves.map Prod.fst).filter
          (fun nf => containsSub (basenameP kv.1) nf) with
      | nil => exact Or.inr (Or.inl ⟨_, st.moves, rfl, Or.inl rfl⟩)
      | cons ik rest =>
        cases rest with
        | cons ik2 rest2 => exact Or.inr (Or.inl ⟨_, st.moves, rfl, Or.inl rfl⟩)
        | nil =>
          dsimp only
          cases hlk : lookupP st.moves ik with
          | none => exact Or.inr (Or.inl ⟨_, st.moves, rfl, Or.inl rfl⟩)
          | some v =>
            try dsimp only
            cases hex : lookupP st.files (replaceAll patSorted patPlain kv.1) with
            | none =>
              exact Or.inr (Or.inl ⟨_, removeKey st.moves ik, rfl, Or.inr ⟨ik, rfl⟩⟩)
            | some c1 =>
              try dsimp only
              cases hv : lookupP st.files v with
              | none =>
                exact Or.inr (Or.inl ⟨_, removeKey st.moves ik, rfl, Or.inr ⟨ik, rfl⟩⟩)
              | some c2 =>
                try dsimp only
                by_cases hb : c1.bytes = c2.bytes
                · rw [if_pos hb]
                  cases hdry : dry with
                  | true =>
                    refine Or.inr (Or.inr ⟨ik, v, replaceAll patSorted patPlain kv.1,
                      hlk, Or.inl ⟨rfl, ?_⟩⟩)
                    rw [if_pos rfl]
                  | false =>
                    refine Or.inr (Or.inr ⟨ik, v, replaceAll patSorted patPlain kv.1,
                      hlk, Or.inr (Or.inr ⟨rfl, ?_⟩)⟩)
                    rw [if_neg (by simp)]
                · rw [if_neg hb]
                  exact Or.inr (Or.inr ⟨ik, v, replaceAll patSorted patPlain kv.1,
                    hlk, Or.inr (Or.inl rfl)⟩)
    · rw [if_neg hm]
      exact Or.inl rfl

/-- Deleted files are really gone from the filesystem state. -/
theorem checkStep_deleted_gone (dry : Bool) (st : RecState) (kv : Path × Path)
    (hinv : ∀ f ∈ st.deletions, f ∉ st.files.map Prod.fst) :
    ∀ f ∈ (checkStep dry st kv).deletions,
      f ∉ ((checkStep dry st kv).files).map Prod.fst := by
  have hsubfst : ∀ (l : List (Path × Content)) (k q : Path),
      q ∈ (removeKey l k).map Prod.fst → q ∈ l.map Prod.fst := by
    intro l k q hq
    obtain ⟨e, he, hqe⟩ := List.mem_map.mp hq
    exact List.mem_map.mpr ⟨e, removeKey_sub l k e he, hqe⟩
  have hgonefst : ∀ (l : List (Path × Content)) (k : Path),
      k ∉ (removeKey l k).map Prod.fst := by
    intro l k hk
    obtain ⟨e, he, hke⟩ := List.mem_map.mp hk
    have he2 : e = (k, e.2) := by
      cases e
      simp at hke
      simp [hke]
    rw [he2] at he
    exact removeKey_gone l k e.2 he
  rcases checkStep_cases dry st kv with hc | ⟨msg, m2, hc, _⟩ |
      ⟨ik, v, ex, hlk, hc | hc | hc⟩
  · rw [hc]; exact hinv
  · rw [hc]; exact hinv
  · rw [hc.2]; exact hinv
  · rw [hc]; exact hinv
  · rw [hc.2]
    intro f hf
    dsimp only at hf ⊢
    rcases List.mem_append.mp hf with h1 | h1
    · intro hcon
      exact hinv f h1 (hsubfst _ _ _ hcon)
    · have hfv : f = v := by simpa using h1
      rw [hfv]
      exact hgonefst _ _

/-- Trichotomy of an error-free apply-mode reconciliation step: a plan
entry survives, or its file was deleted after an identical comparison, or
it was reported for manual review. -/
theorem checkStep_trichotomy (st : RecState) (kv : Path × Path)
    (hnd : (st.moves.map Prod.fst).Nodup)
    (hres : (checkStep false st kv).err = none)
    (e : Path × Path) (he : e ∈ st.moves) :
    e ∈ (checkStep false st kv).moves ∨
    e.2 ∈ (checkStep false st kv).deletions ∨
    e.2 ∈ ((checkStep false st kv).warnings).map Prod.snd := by
  rcases checkStep_cases false st kv with hc | ⟨msg, m2, hc, _⟩ |
      ⟨ik, v, ex, hlk, hc | hc | hc⟩
  · rw [hc]
    exact Or.inl he
  · rw [hc] at hres
    cases hres
  · cases hc.1
  · by_cases hmem : e ∈ removeKey st.moves ik
    · rw [hc]
      exact Or.inl hmem
    · have hik : e.1 = ik := removeKey_missing st.moves ik e he hmem
      have hlk2 : lookupP st.moves e.1 = some e.2 := by
        cases e
        exact nodup_lookup st.moves hnd _ _ he
      rw [hik, hlk] at hlk2
      injection hlk2 with hv2
      rw [hc]
      refine Or.inr (Or.inr ?_)
      rw [hv2]
      simp
  · by_cases hmem : e ∈ removeKey st.moves ik
    · rw [hc.2]
      exact Or.inl hmem
    · have hik : e.1 = ik := removeKey_missing st.moves ik e he hmem
      have hlk2 : lookupP st.moves e.1 = some e.2 := by
        cases e
        exact nodup_lookup st.moves hnd _ _ he
      rw [hik, hlk] at hlk2
      injection hlk2 with hv2
      rw [hc.2]
      refine Or.inr (Or.inl ?_)
      rw [hv2]
      simp

/-- The removed key never occurs among the first components afterwards. -/
theorem removeKey_fst_gone {α : Type} (l : List (Path × α)) (k : Path) :
    k ∉ (removeKey l k).map Prod.fst := by
  intro hk
  obtain ⟨e, he, hke⟩ := List.mem_map.mp hk
  have he2 : e = (k, e.2) := by
    cases e
    simp at hke
    simp [hke]
  rw [he2] at he
  exact removeKey_gone l k e.2 he

/-- Plan entries only leave during reconciliation. -/
theorem foldl_moves_sub (dry : Bool) :
    ∀ (old : List (Path × Path)) (st : RecState) (e : Path × Path),
      e ∈ (List.foldl (checkStep dry) st old).moves → e ∈ st.moves := by
  intro old
  induction old with
  | nil => intro st e h; exact h
  | cons kv rest ih =>
    intro st e h
    rw [List.foldl_cons] at h
    exact checkStep_moves_sub dry st kv e (ih _ e h)

/-- Files only leave during reconciliation. -/
theorem foldl_files_sub (dry : Bool) :
    ∀ (old : List (Path × Path)) (st : RecState) (q : Path × Content),
      q ∈ (List.foldl (checkStep dry) st old).files → q ∈ st.files := by
  intro old
  induction old with
  | nil => intro st q h; exact h
  | cons kv rest ih =>
    intro st q h
    rw [List.foldl_cons] at h
    exact checkStep_files_sub dry st kv q (ih _ q h)

/-- An error-free reconciliation run started error-free. -/
theorem foldl_err_none (dry : Bool) :
    ∀ (old : List (Path × Path)) (st : RecState),
      (List.foldl (checkStep dry) st old).err = none → st.err = none := by
  intro old
  induction old with
  | nil => intro st h; exact h
  | cons kv rest ih =>
    intro st h
    rw [List.foldl_cons] at h
    exact checkStep_err_none dry st kv (ih _ h)

/-- Plan keys stay dup-free along reconciliation. -/
theorem foldl_moves_nodup (dry : Bool) :
    ∀ (old : List (Path × Path)) (st : RecState),
      (st.moves.map Prod.fst).Nodup →
      (((List.foldl (checkStep dry) st old).moves).map Prod.fst).Nodup := by
  intro old
  induction old with
  | nil => intro st h; exact h
  | cons kv rest ih =>
    intro st h
    rw [List.foldl_cons]
    exact ih _ (checkStep_moves_nodup dry st kv h)

/-- Warnings persist along reconciliation. -/
theorem foldl_warnings_mono (dry : Bool) :
    ∀ (old : List (Path × Path)) (st : RecState) (x : Path × Path),
      x ∈ st.warnings → x ∈ (List.foldl (checkStep dry) st old).warnings := by
  intro old
  induction old with
  | nil => intro st x h; exact h
  | cons kv rest ih =>
    intro st x h
    rw [List.foldl_cons]
    exact ih _ x (checkStep_warnings_mono dry st kv x h)

/-- Recorded deletions persist along reconciliation. -/
theorem checkStep_deletions_mono (dry : Bool) (st : RecState) (kv : Path × Path)
    (f : Path) (h : f ∈ st.deletions) : f ∈ (checkStep dry st kv).deletions := by
  rcases checkStep_cases dry st kv with hc | ⟨msg, m2, hc, _⟩ |
      ⟨ik, v, ex, hlk, hc | hc | hc⟩
  · rw [hc]; exact h
  · rw [hc]; exact h
  · rw [hc.2]; exact h
  · rw [hc]; exact h
  · rw [hc.2]
    exact List.mem_append.mpr (Or.inl h)

/-- Fold version of deletion persistence. -/
theorem foldl_deletions_mono (dry : Bool) :
    ∀ (old : List (Path × Path)) (st : RecState) (f : Path),
      f ∈ st.deletions → f ∈ (List.foldl (checkStep dry) st old).deletions := by
  intro old
  induction old with
  | nil => intro st f h; exact h
  | cons kv rest ih =>
    intro st f h
    rw [List.foldl_cons]
    exact ih _ f (checkStep_deletions_mono dry st kv f h)

/-- Deleted files stay gone along reconciliation. -/
theorem foldl_deleted_gone (dry : Bool) :
    ∀ (old : List (Path × Path)) (st : RecState),
      (∀ f ∈ st.deletions, f ∉ st.files.map Prod.fst) →
      ∀ f ∈ (List.foldl (checkStep dry) st old).deletions,
        f ∉ ((List.foldl (checkStep dry) st old).files).map Prod.fst := by
  intro old
  induction old with
  | nil => intro st h; exact h
  | cons kv rest ih =>
    intro st h
    rw [List.foldl_cons]
    exact ih _ (checkStep_deleted_gone dry st kv h)

/-- Trichotomy along a whole error-free apply-mode reconciliation. -/
theorem foldl_trichotomy :
    ∀ (old : List (Path × Path)) (st : RecState),
      (st.moves.map Prod.fst).Nodup →
      (List.foldl (checkStep false) st old).err = none →
      ∀ e ∈ st.moves,
        e ∈ (List.foldl (checkStep false) st old).moves ∨
        e.2 ∈ (List.foldl (checkStep false) st old).deletions ∨
        e.2 ∈ ((List.foldl (checkStep false) st old).warnings).map Prod.snd := by
  intro old
  induction old with
  | nil => intro st _ _ e he; exact Or.inl he
  | cons kv rest ih =>
    intro st hnd herr e he
    rw [List.foldl_cons] at herr ⊢
    have hstep_err : (checkStep false st kv).err = none := foldl_err_none false rest _ herr
    rcases checkStep_trichotomy st kv hnd hstep_err e he with h1 | h1 | h1
    · exact ih _ (checkStep_moves_nodup false st kv hnd) herr e h1
    · exact Or.inr (Or.inl (foldl_deletions_mono false rest _ e.2 h1))
    · obtain ⟨w, hw, hws⟩ := List.mem_map.mp h1
      exact Or.inr (Or.inr (List.mem_map.mpr
        ⟨w, foldl_warnings_mono false rest _ w hw, hws⟩))

/-- An error-free moving step started error-free. -/
theorem moveStep_err_none (st : MoveState) (mv : Path × Path)
    (h : (moveStep st mv).err = none) : st.err = none := by
  by_cases he : st.err.isSome
  · rw [moveStep_frozen st mv he] at h
    exact h
  · simpa using he

/-- An error-free moving loop started error-free. -/
theorem foldl_moveStep_err_none :
    ∀ (ms : List (Path × Path)) (st : MoveState),
      (List.foldl moveStep st ms).err = none → st.err = none := by
  intro ms
  induction ms with
  | nil => intro st h; exact h
  | cons mv rest ih =>
    intro st h
    rw [List.foldl_cons] at h
    exact moveStep_err_none st mv (ih _ h)

/-- Characterization of an error-free moving step. -/
theorem moveStep_success (st : MoveState) (mv : Path × Path)
    (h : st.err = none) (h2 : (moveStep st mv).err = none) :
    ∃ c, lookupP st.files mv.1 = none ∧ lookupP st.files mv.2 = some c ∧
      moveStep st mv =
        { st with files := removeKey st.files mv.2 ++ [(mv.1, c)],
                  done := st.done ++ [mv] } := by
  have hisome : st.err.isSome = false := by rw [h]; rfl
  unfold moveStep at h2 ⊢
  rw [hisome] at h2 ⊢
  simp only [Bool.false_eq_true, if_false] at h2 ⊢
  by_cases hnew : (lookupP st.files mv.1).isSome
  · rw [if_pos hnew] at h2
    cases h2
  · rw [if_neg hnew] at h2 ⊢
    cases hold : lookupP st.files mv.2 with
    | none =>
      rw [hold] at h2
      cases h2
    | some c =>
      exact ⟨c, by simpa using hnew, rfl, rfl⟩

/-- Files after the moving loop were there before or are planned
targets. -/
theorem foldl_move_files_mem :
    ∀ (ms : List (Path × Path)) (st : MoveState) (q : Path × Content),
      q ∈ (List.foldl moveStep st ms).files →
      q ∈ st.files ∨ q.1 ∈ ms.map Prod.fst := by
  intro ms
  induction ms with
  | nil => intro st q h; exact Or.inl h
  | cons mv rest ih =>
    intro st q h
    rw [List.foldl_cons] at h
    rcases ih _ q h with h1 | h1
    · unfold moveStep at h1
      by_cases he : st.err.isSome
      · rw [if_pos he] at h1; exact Or.inl h1
      · rw [if_neg he] at h1
        by_cases hnew : (lookupP st.files mv.1).isSome
        · rw [if_pos hnew] at h1; exact Or.inl h1
        · rw [if_neg hnew] at h1
          cases hold : lookupP st.files mv.2 with
          | none => rw [hold] at h1; exact Or.inl h1
          | some c =>
            rw [hold] at h1
            dsimp only at h1
            rcases List.mem_append.mp h1 with h3 | h3
            · exact Or.inl (removeKey_sub _ _ q h3)
            · have : q = (mv.1, c) := by simpa using h3
              rw [this]
              exact Or.inr (by simp)
    · exact Or.inr (List.mem_cons.mpr (Or.inr (by simpa using h1)))

/-- A path absent from the filesystem and from the targets stays
absent after the moving loop. -/
theorem foldl_move_not_mem :
    ∀ (ms : List (Path × Path)) (st : MoveState) (q : Path),
      q ∉ st.files.map Prod.fst → q ∉ ms.map Prod.fst →
      q ∉ ((List.foldl moveStep st ms).files).map Prod.fst := by
  intro ms st q h1 h2 hc
  obtain ⟨e, he, hqe⟩ := List.mem_map.mp hc
  rcases foldl_move_files_mem ms st e he with h3 | h3
  · exact h1 (List.mem_map.mpr ⟨e, h3, hqe⟩)
  · rw [hqe] at h3
    exact h2 h3

/-- After an error-free moving loop, the old location of every planned
move that is not itself a target no longer exists. -/
theorem moveAll_old_gone :
    ∀ (ms : List (Path × Path)) (st : MoveState),
      st.err = none →
      (List.foldl moveStep st ms).err = none →
      ∀ n o, (n, o) ∈ ms → o ∉ ms.map Prod.fst →
      o ∉ ((List.foldl moveStep st ms).files).map Prod.fst := by
  intro ms
  induction ms with
  | nil => intro st _ _ n o h; cases h
  | cons mv rest ih =>
    intro st hst herr n o hmem hnot
    rw [List.foldl_cons] at herr ⊢
    have hstep_err : (moveStep st mv).err = none := foldl_moveStep_err_none rest _ herr
    rcases List.mem_cons.mp hmem with h1 | h1
    · obtain ⟨c, hnew, hold, hrec⟩ := moveStep_success st mv hst hstep_err
      have hno : o ∉ ((moveStep st mv).files).map Prod.fst := by
        rw [hrec]
        dsimp only
        intro hc
        rw [List.map_append] at hc
        rcases List.mem_append.mp hc with h3 | h3
        · rw [show mv.2 = o from (congrArg Prod.snd h1).symm] at h3
          exact removeKey_fst_gone st.files o h3
        · have hqn : o = mv.1 := by simpa using h3
          exact hnot (by rw [hqn]; simp)
      exact foldl_move_not_mem rest _ o hno
        (fun hc => hnot (List.mem_cons.mpr (Or.inr hc)))
    · exact ih _ hstep_err herr n o h1 (fun hc => hnot (List.mem_cons.mpr (Or.inr hc)))

/-- Discovery returns nothing when no file below the source resolves. -/
theorem findPictures_eq_nil (fs : FS) (source : Path)
    (h : ∀ pc ∈ fs.files, ∀ t, pc.2.ts = some t →
      begWith (source ++ [ '/' ]) pc.1 = false) :
    findPictures fs source = [] := by
  unfold findPictures
  rw [List.filterMap_eq_nil_iff]
  intro pc hpc
  cases hts : pc.2.ts with
  | none => rfl
  | some t =>
    have hb := h pc hpc t hts
    simp [hb]

/-- Discovery finds every resolvable file below the source. -/
theorem findPictures_mem (fs : FS) (source p : Path) (c : Content)
    (t : Timestamp) (hm : (p, c) ∈ fs.files) (hts : c.ts = some t)
    (hb : begWith (source ++ [ '/' ]) p = true) :
    (t, p) ∈ findPictures fs source := by
  unfold findPictures
  refine List.mem_filterMap.mpr ⟨(p, c), hm, ?_⟩
  dsimp only
  rw [hts]
  simp [hb]

/-- A reconciliation step on an empty plan does nothing. -/
theorem checkStep_empty (dry : Bool) (st : RecState) (kv : Path × Path)
    (h : st.moves = []) : checkStep dry st kv = st := by
  by_cases he : st.err.isSome
  · exact checkStep_frozen dry st kv he
  · exact checkStep_skip dry st kv (by rw [h]; simp)

/-- Reconciliation of an empty plan does nothing. -/
theorem foldl_checkStep_empty (dry : Bool) :
    ∀ (old : List (Path × Path)) (st : RecState), st.moves = [] →
      List.foldl (checkStep dry) st old = st := by
  intro old
  induction old with
  | nil => intro st _; rfl
  | cons kv rest ih =>
    intro st h
    rw [List.foldl_cons, checkStep_empty dry st kv h]
    exact ih st h

/-- An apply run that discovers nothing moves nothing, deletes nothing,
reports nothing and raises nothing. -/
theorem doMoveFiles_no_pics (fs : FS) (out : Path) :
    (doMoveFiles fs [] out).movedCount = 0 ∧
    (doMoveFiles fs [] out).deletedDuplicates = 0 ∧
    (doMoveFiles fs [] out).warnings = [] ∧
    (doMoveFiles fs [] out).err = none := by
  unfold doMoveFiles
  have hcm : create_moves [] out = .ok [] := rfl
  rw [hcm]
  dsimp only
  have hst : checkUpdate false [] fs.files (fs.ledger.getD []) =
      { moves := [], files := fs.files, deletedCount := 0, deletions := [],
        warnings := [], compares := [], err := none } := by
    unfold checkUpdate
    exact foldl_checkStep_empty false _ _ rfl
  rw [hst]
  dsimp only
  have hmv : moveAll [] fs.files = { files := fs.files, done := [], err := none } := rfl
  rw [hmv]
  dsimp only
  have happ : appendMoves [] fs.ledger false = (some (fs.ledger.getD []), none) := by
    unfold appendMoves
    rw [if_neg (by simp), if_neg (by simp)]
    simp
  rw [happ]
  simp

/-- Two prefixes of one path are comparable. -/
theorem begWith_comparable :
    ∀ (a b p : Path), begWith a p = true → begWith b p = true →
      begWith a b = true ∨ begWith b a = true := by
  intro a
  induction a with
  | nil => intro b p _ _; exact Or.inl rfl
  | cons x a2 ih =>
    intro b p h1 h2
    cases b with
    | nil => exact Or.inr rfl
    | cons y b2 =>
      cases p with
      | nil => cases h1
      | cons z p2 =>
        unfold begWith at h1 h2
        by_cases hx : x = z
        · rw [if_pos hx] at h1
          by_cases hy : y = z
          · rw [if_pos hy] at h2
            have hxy : x = y := by rw [hx, hy]
            rcases ih b2 p2 h1 h2 with h3 | h3
            · refine Or.inl ?_
              unfold begWith
              rw [if_pos hxy]
              exact h3
            · refine Or.inr ?_
              unfold begWith
              rw [if_pos hxy.symm]
              exact h3
          · rw [if_neg hy] at h2
            cases h2
        · rw [if_neg hx] at h1
          cases h1

/-- After a successful, warning-free apply run with the output outside
the source tree, no file below the source directory resolves to a
timestamp any more: everything discovered was moved away or deleted. -/
theorem apply_clears_source (fs : FS) (source out : Path) (hout : out ≠ [])
    (hdisj : ∀ p : Path, begWith (out ++ [ '/' ]) p = true →
      begWith (source ++ [ '/' ]) p = false)
    (h1 : (applyRun fs source out).err = none)
    (h2 : (applyRun fs source out).warnings = []) :
    ∀ p c, (p, c) ∈ (applyRun fs source out).files →
      begWith (source ++ [ '/' ]) p = true → c.ts = none := by
  unfold applyRun doMoveFiles at h1 h2 ⊢
  cases hcm : create_moves (findPictures fs source) out with
  | error e =>
    rw [hcm] at h1
    dsimp only at h1
    simp at h1
  | ok m0 =>
    rw [hcm] at h1 h2
    dsimp only at h1 h2 ⊢
    by_cases herr : (checkUpdate false m0 fs.files (fs.ledger.getD [])).err.isSome
    · rw [if_pos herr] at h1
      dsimp only at h1
      rw [h1] at herr
      simp at herr
    · rw [if_neg herr] at h1 h2 ⊢
      have hcue : (checkUpdate false m0 fs.files (fs.ledger.getD [])).err = none := by
        cases hoe : (checkUpdate false m0 fs.files (fs.ledger.getD [])).err with
        | none => rfl
        | some e => rw [hoe] at herr; simp at herr
      cases hmv : (moveAll (checkUpdate false m0 fs.files (fs.ledger.getD [])).moves
          (checkUpdate false m0 fs.files (fs.ledger.getD [])).files).err with
      | some e =>
        rw [hmv] at h1
        dsimp only at h1
        simp at h1
      | none =>
        rw [hmv] at h1 h2
        dsimp only at h1 h2 ⊢
        intro p c hpc hb
        cases hts : c.ts with
        | none => rfl
        | some t =>
          exfalso
          have hnd0 : (m0.map Prod.fst).Nodup :=
            create_moves_nodup_helper (findPictures fs source) out m0 hcm
          have hkeys := create_moves_keys_begWith (findPictures fs source) out hout m0 hcm
          have hpnotkey : p ∉
              ((checkUpdate false m0 fs.files (fs.ledger.getD [])).moves).map Prod.fst := by
            intro hc
            obtain ⟨e2, he2, hpe⟩ := List.mem_map.mp hc
            have he3 : e2 ∈ m0 := foldl_moves_sub false (fs.ledger.getD []) _ e2 he2
            have hbw := hkeys e2.1 (List.mem_map.mpr ⟨e2, he3, rfl⟩)
            rw [hpe] at hbw
            rw [hdisj p hbw] at hb
            simp at hb
          rcases foldl_move_files_mem _ _ (p, c) hpc with hin | hin
          · have hfs : (p, c) ∈ fs.files :=
              foldl_files_sub false (fs.ledger.getD []) _ (p, c) hin
            have hpic : (t, p) ∈ findPictures fs source :=
              findPictures_mem fs source p c t hfs hts hb
            have hval : p ∈ m0.map Prod.snd :=
              create_moves_values (findPictures fs source) out m0 hcm (t, p) hpic
            obtain ⟨e2, he2, hpe⟩ := List.mem_map.mp hval
            cases e2 with
            | mk k0 v0 =>
              dsimp only at hpe
              subst hpe
              rcases foldl_trichotomy (fs.ledger.getD []) _ hnd0 hcue (k0, v0) he2
                with h3 | h3 | h3
              · have hgone := moveAll_old_gone
                  (checkUpdate false m0 fs.files (fs.ledger.getD [])).moves
                  { files := (checkUpdate false m0 fs.files (fs.ledger.getD [])).files,
                    done := [], err := none } rfl hmv k0 v0 h3 hpnotkey
                exact hgone (List.mem_map.mpr ⟨(v0, c), hpc, rfl⟩)
              · have hdel := foldl_deleted_gone false (fs.ledger.getD []) _
                  (fun f hf => absurd hf (by simp)) v0 h3
                exact hdel (List.mem_map.mpr ⟨(v0, c), hin, rfl⟩)
              · unfold checkUpdate at h2
                rw [h2] at h3
                simp at h3
          · exact hpnotkey (by simpa using hin)

-- MORE_LEMMAS_HERE

/-! ### Claim theorems -/

/-- C9 (amended): the filesystem-metadata fallback resolves the earlier
of ctime and mtime and returns it unless the chained comparison of the
source fires, that is unless the resolved year equals the current year
and the resolved month, the current month, the resolved day and the
current day are all four equal; matching the exact current run time is
neither necessary nor sufficient for rejection. -/
theorem extract_filemeta_ok_iff (conv : Nat → Timestamp) (ctime mtime : Nat)
    (now t : Timestamp) :
    extract_timestamp_from_filemeta conv ctime mtime now = .ok t ↔
      (t = conv (min ctime mtime) ∧
        ¬(t.year = now.year ∧ t.month = now.month ∧
          now.month = t.day ∧ t.day = now.day)) := by
  unfold extract_timestamp_from_filemeta
  by_cases h : suspiciousChain (conv (min ctime mtime)) now = true
  · rw [if_pos h]
    simp only [suspiciousChain, decide_eq_true_eq] at h
    constructor
    · intro hfalse; cases hfalse
    · rintro ⟨rfl, hn⟩; exact absurd h hn
  · rw [if_neg h]
    simp only [suspiciousChain, decide_eq_true_eq] at h
    constructor
    · intro hok
      cases hok
      exact ⟨rfl, h⟩
    · rintro ⟨rfl, _⟩; rfl

/-- C9 (counterexample): a fallback timestamp that lands on the current
date and matches the exact current run time is returned, not rejected,
because the chained comparison only fires when month and day numbers
coincide. -/
theorem extract_filemeta_accepts_now :
    extract_timestamp_from_filemeta (fun _ => ⟨2026, 10, 12, 9, 30, 0⟩)
      5 7 ⟨2026, 10, 12, 9, 30, 0⟩ = .ok ⟨2026, 10, 12, 9, 30, 0⟩ := rfl

/-- C4: a DryRun execution leaves the file tree and the persisted ledger
untouched on every input, including inputs on which it raises. -/
theorem dryrun_purity (fs : FS) (source out : Path) :
    (dryRun fs source out).files = fs.files ∧
    (dryRun fs source out).ledger = fs.ledger := by
  unfold dryRun dryrunMoveFiles
  cases hcm : create_moves (findPictures fs source) out with
  | error e => exact ⟨rfl, rfl⟩
  | ok m0 =>
    have hf := checkUpdate_dry_files m0 fs.files (fs.ledger.getD [])
    have hl := appendMoves_dry_ledger
      (checkUpdate true m0 fs.files (fs.ledger.getD [])).moves fs.ledger
    dsimp only
    split
    · exact ⟨hf, rfl⟩
    · exact ⟨hf, hl⟩

/-- C7 (failing input): on a single byte-identical duplicate, Apply mode
deletes it and reports one discarded duplicate while DryRun reports zero
duplicates for the same input, although the planned move lists agree. -/
theorem dryrun_report_count_diverges :
    (applyRun fsC7 (str ("s")) (str ("o"))).deletedDuplicates = 1 ∧
    (dryRun fsC7 (str ("s")) (str ("o"))).deletedDuplicates = 0 ∧
    (dryRun fsC7 (str ("s")) (str ("o"))).plannedMoves =
      (applyRun fsC7 (str ("s")) (str ("o"))).plannedMoves ∧
    (applyRun fsC7 (str ("s")) (str ("o"))).err = none ∧
    (dryRun fsC7 (str ("s")) (str ("o"))).err = none := by
  decide

/-- C8 (amended): when a planned move hits an already existing absolute
target path, the executor raises instead of overwriting, and the
exception aborts the rest of the run: the filesystem and the list of
performed moves stay exactly as they were at the conflict, so the
remaining planned moves are not executed. -/
theorem moveAll_conflict_aborts_run (pre post : List (Path × Path))
    (k v : Path) (files : List (Path × Content))
    (h1 : (moveAll pre files).err = none)
    (h2 : (lookupP (moveAll pre files).files k).isSome) :
    (moveAll (pre ++ (k, v) :: post) files).files = (moveAll pre files).files ∧
    (moveAll (pre ++ (k, v) :: post) files).done = (moveAll pre files).done ∧
    (moveAll (pre ++ (k, v) :: post) files).err.isSome := by
  unfold moveAll at *
  rw [List.foldl_append, List.foldl_cons, moveStep_conflict _ _ h1 h2,
    foldl_moveStep_frozen post _ (by simp)]
  exact ⟨rfl, rfl, by simp⟩

/-- C8 (witness): concrete instance of the conflict-abort theorem. -/
theorem moveAll_conflict_aborts_run_witness :
    (moveAll ([] : List (Path × Path)) filesC8).err = none ∧
    (lookupP (moveAll ([] : List (Path × Path)) filesC8).files (str ("n1"))).isSome ∧
    ((moveAll ([] ++ (str ("n1"), str ("o1")) :: [(str ("n2"), str ("o2"))]) filesC8).files =
        (moveAll ([] : List (Path × Path)) filesC8).files ∧
      (moveAll ([] ++ (str ("n1"), str ("o1")) :: [(str ("n2"), str ("o2"))]) filesC8).done =
        (moveAll ([] : List (Path × Path)) filesC8).done ∧
      (moveAll ([] ++ (str ("n1"), str ("o1")) :: [(str ("n2"), str ("o2"))]) filesC8).err.isSome) :=
  ⟨by decide, by decide,
    moveAll_conflict_aborts_run [] [(str ("n2"), str ("o2"))] (str ("n1"))
      (str ("o1")) filesC8 (by decide) (by decide)⟩

/-- C8 (counterexample): the conflict on the first move prevents the
second, perfectly executable move from being performed at all, refuting
the claim that only the single conflicting move is aborted. -/
theorem moveAll_conflict_not_single :
    (moveAll movesC8 filesC8).files = filesC8 ∧
    (moveAll movesC8 filesC8).done = [] ∧
    (moveAll movesC8 filesC8).err.isSome = true ∧
    lookupP filesC8 (str ("n2")) = none ∧
    (lookupP filesC8 (str ("o2"))).isSome = true := by
  decide

/-- C1 (amended): a source file is deleted during reconciliation only if
a byte-for-byte comparison proved its content identical to the file found
at the rewritten (pictures_sorted to pictures) path of a Ledger key whose
basename matches the plan key of the deleted file; that Ledger key is not
necessarily the deleted file's own TargetPath. -/
theorem deletion_requires_identical_bytes (dry : Bool)
    (m0 : List (Path × Path)) (files : List (Path × Content))
    (old : List (Path × Path)) (f : Path)
    (hf : f ∈ (checkUpdate dry m0 files old).deletions) :
    ∃ k w nk c1 c2, (k, w) ∈ old ∧ (nk, f) ∈ m0 ∧
      basenameP nk = basenameP k ∧ containsSub (basenameP k) nk = true ∧
      (replaceAll patSorted patPlain k, c1) ∈ files ∧ (f, c2) ∈ files ∧
      c1.bytes = c2.bytes ∧ dry = false := by
  unfold checkUpdate at hf
  rcases foldl_deletions_sound dry m0 files old _
      (fun e he => he) (fun q hq => hq) f hf with h1 | h1
  · cases h1
  · exact h1

/-- C1 (witness): concrete deletion instance for the soundness theorem. -/
theorem deletion_requires_identical_bytes_witness :
    str ("s/p.jpg") ∈ (checkUpdate false movesC1 filesC1 oldC1).deletions ∧
    (∃ k w nk c1 c2, (k, w) ∈ oldC1 ∧ (nk, str ("s/p.jpg")) ∈ movesC1 ∧
      basenameP nk = basenameP k ∧ containsSub (basenameP k) nk = true ∧
      (replaceAll patSorted patPlain k, c1) ∈ filesC1 ∧
      (str ("s/p.jpg"), c2) ∈ filesC1 ∧
      c1.bytes = c2.bytes ∧ false = false) :=
  ⟨by decide, deletion_requires_identical_bytes false movesC1 filesC1 oldC1
    (str ("s/p.jpg")) (by decide)⟩

/-- C1 (counterexample): the incoming file s/p.jpg is deleted although
the Ledger records nothing at the file's own TargetPath o/2021/B.jpg and
no file exists there; the comparison that justified the deletion was
against the Ledger key o/2020/B.jpg, matched only by basename. -/
theorem deletion_without_record_at_own_target :
    (checkUpdate false movesC1 filesC1 oldC1).deletions = [str ("s/p.jpg")] ∧
    lookupP movesC1 (str ("o/2021/B.jpg")) = some (str ("s/p.jpg")) ∧
    lookupP oldC1 (str ("o/2021/B.jpg")) = none ∧
    lookupP filesC1 (str ("o/2021/B.jpg")) = none := by
  decide

/-- C2 (amended): for a Ledger entry sharing a TargetPath key with the
Plan, being the unique substring match for its basename while no other
Ledger entry matches any plan basename, if the two referenced files
differ in content then reconciliation prints a manual-review report and
raises no exception, deletes nothing and leaves every file in place, but
removes the entry from the returned Plan rather than leaving it there. -/
theorem reconcile_different_content (dry : Bool) (m0 : List (Path × Path))
    (files : List (Path × Content)) (a b : List (Path × Path))
    (k w p : Path) (c1 c2 : Content)
    (hk : lookupP m0 k = some p)
    (hfil : (m0.map Prod.fst).filter (fun nf => containsSub (basenameP k) nf) = [k])
    (hothers : ∀ kv, (kv ∈ a ∨ kv ∈ b) →
      basenameP kv.1 ∉ m0.map (fun nf => basenameP nf.1))
    (hex : lookupP files (replaceAll patSorted patPlain k) = some c1)
    (hin : lookupP files p = some c2)
    (hdiff : ¬ c1.bytes = c2.bytes) :
    (checkUpdate dry m0 files (a ++ (k, w) :: b)).moves = removeKey m0 k ∧
    (checkUpdate dry m0 files (a ++ (k, w) :: b)).files = files ∧
    (checkUpdate dry m0 files (a ++ (k, w) :: b)).deletions = [] ∧
    (checkUpdate dry m0 files (a ++ (k, w) :: b)).deletedCount = 0 ∧
    (checkUpdate dry m0 files (a ++ (k, w) :: b)).warnings =
      [(replaceAll patSorted patPlain k, p)] ∧
    (checkUpdate dry m0 files (a ++ (k, w) :: b)).err = none := by
  unfold checkUpdate
  rw [List.foldl_append]
  rw [foldl_checkStep_skip dry a _ (fun kv hkv => hothers kv (Or.inl hkv))]
  rw [List.foldl_cons]
  have hm : basenameP ((k, w) : Path × Path).1 ∈
      (List.map (fun nf => basenameP nf.1)
        ({ moves := m0, files := files, deletedCount := 0, deletions := [],
           warnings := [], compares := [], err := none } : RecState).moves) :=
    List.mem_map.mpr ⟨(k, p), lookupP_mem m0 k p hk, rfl⟩
  rw [checkStep_hit_diff dry _ (k, w) k p c1 c2 rfl hm hfil hk hex hin hdiff]
  rw [foldl_checkStep_skip dry b _ ?hskip]
  case hskip =>
    intro kv hkv hbm
    exact hothers kv (Or.inr hkv)
      (basenames_subset m0 (removeKey m0 k) (removeKey_sub m0 k) _ hbm)
  exact ⟨rfl, rfl, rfl, rfl, rfl, rfl⟩

/-- C2 (witness): concrete differing-content duplicate processed by the
amended theorem. -/
theorem reconcile_different_content_witness :
    lookupP movesC2 (str ("d/t.jpg")) = some (str ("s/a.jpg")) ∧
    (¬ (Content.mk [1] none).bytes = (Content.mk [2] none).bytes) ∧
    ((checkUpdate false movesC2 filesC2
        ([] ++ (str ("d/t.jpg"), str ("x")) :: [])).moves =
          removeKey movesC2 (str ("d/t.jpg")) ∧
      (checkUpdate false movesC2 filesC2
        ([] ++ (str ("d/t.jpg"), str ("x")) :: [])).files = filesC2 ∧
      (checkUpdate false movesC2 filesC2
        ([] ++ (str ("d/t.jpg"), str ("x")) :: [])).deletions = [] ∧
      (checkUpdate false movesC2 filesC2
        ([] ++ (str ("d/t.jpg"), str ("x")) :: [])).deletedCount = 0 ∧
      (checkUpdate false movesC2 filesC2
        ([] ++ (str ("d/t.jpg"), str ("x")) :: [])).warnings =
        [(replaceAll patSorted patPlain (str ("d/t.jpg")), str ("s/a.jpg"))] ∧
      (checkUpdate false movesC2 filesC2
        ([] ++ (str ("d/t.jpg"), str ("x")) :: [])).err = none) :=
  ⟨by decide, by decide,
    reconcile_different_content false movesC2 filesC2 [] []
      (str ("d/t.jpg")) (str ("x")) (str ("s/a.jpg")) ⟨[1], none⟩ ⟨[2], none⟩
      (by decide) (by decide)
      (by intro kv hkv; rcases hkv with h | h <;> exact absurd h (by simp))
      (by decide) (by decide) (by decide)⟩

/-- C2 (counterexample): with the shared key d/t.jpg referencing files of
different content, the entry does not survive into the returned Plan: the
returned moves are empty, refuting that the entry is left untouched. -/
theorem reconcile_different_entry_removed :
    lookupP filesC2 (str ("d/t.jpg")) = some ⟨[1], none⟩ ∧
    lookupP filesC2 (str ("s/a.jpg")) = some ⟨[2], none⟩ ∧
    (checkUpdate false movesC2 filesC2 oldC2).moves = [] ∧
    (checkUpdate false movesC2 filesC2 oldC2).err = none := by
  decide

/-- C5 (amended): reconciliation matches Ledger entries against the Plan
by basename and against the Plan as it stands when the entry is processed,
not by shared full TargetPath keys: an entry whose basename equals no
remaining Plan-key basename is skipped unchanged, in particular one whose
matching key an earlier entry already consumed; an entry whose basename
substring-matches a number of remaining Plan keys different from one
raises without comparing; an entry with a unique match and both referenced
files present performs exactly one byte comparison, pairing the rewritten
(pictures_sorted to pictures) Ledger path with the matched Plan value, and
raises without comparing when a referenced file is missing.  Consequently
every comparison a run performs pairs the rewritten path of some Ledger
key with the Plan value of a then-unique substring-matching Plan key of
equal basename. -/
theorem compare_pairs_characterized (dry : Bool) (m0 : List (Path × Path))
    (files : List (Path × Content)) (old : List (Path × Path))
    (st : RecState) (kv : Path × Path) (herr : st.err = none) :
    (∀ pr ∈ (checkUpdate dry m0 files old).compares, ∃ k w nk p,
      (k, w) ∈ old ∧ (nk, p) ∈ m0 ∧
      basenameP nk = basenameP k ∧ containsSub (basenameP k) nk = true ∧
      pr = (replaceAll patSorted patPlain k, p)) ∧
    (basenameP kv.1 ∉ st.moves.map (fun nf => basenameP nf.1) →
      checkStep dry st kv = st) ∧
    (basenameP kv.1 ∈ st.moves.map (fun nf => basenameP nf.1) →
      ((st.moves.map Prod.fst).filter
        (fun nf => containsSub (basenameP kv.1) nf)).length ≠ 1 →
      (checkStep dry st kv).compares = st.compares ∧
      (checkStep dry st kv).err =
        some ("more than one file with the same name")) ∧
    (∀ ik v c1 c2,
      basenameP kv.1 ∈ st.moves.map (fun nf => basenameP nf.1) →
      (st.moves.map Prod.fst).filter
        (fun nf => containsSub (basenameP kv.1) nf) = [ik] →
      lookupP st.moves ik = some v →
      lookupP st.files (replaceAll patSorted patPlain kv.1) = some c1 →
      lookupP st.files v = some c2 →
      (checkStep dry st kv).compares =
        st.compares ++ [(replaceAll patSorted patPlain kv.1, v)] ∧
      (checkStep dry st kv).err = none) ∧
    (∀ ik v,
      basenameP kv.1 ∈ st.moves.map (fun nf => basenameP nf.1) →
      (st.moves.map Prod.fst).filter
        (fun nf => containsSub (basenameP kv.1) nf) = [ik] →
      lookupP st.moves ik = some v →
      (lookupP st.files (replaceAll patSorted patPlain kv.1) = none ∨
        lookupP st.files v = none) →
      (checkStep dry st kv).compares = st.compares ∧
      (checkStep dry st kv).err = some ("filecmp io error")) := by
  refine ⟨?_, ?_, ?_, ?_, ?_⟩
  · intro pr hpr
    unfold checkUpdate at hpr
    rcases foldl_compares_sound dry m0 old _ (fun e he => he) pr hpr with h1 | h1
    · cases h1
    · exact h1
  · intro htrig
    exact checkStep_skip dry st kv htrig
  · intro htrig hlen
    have hstep : checkStep dry st kv =
        { st with err := some ("more than one file with the same name") } := by
      unfold checkStep
      rw [if_neg (by simp [herr])]
      dsimp only
      rw [if_pos htrig]
      cases hfil : (st.moves.map Prod.fst).filter
          (fun nf => containsSub (basenameP kv.1) nf) with
      | nil => rfl
      | cons ik rest =>
        cases rest with
        | nil => rw [hfil] at hlen; simp at hlen
        | cons ik2 rest2 => rfl
    rw [hstep]
    exact ⟨rfl, rfl⟩
  · intro ik v c1 c2 htrig hfil hlk hex hv
    constructor
    · show (checkStep dry st kv).compares = _
      unfold checkStep
      rw [if_neg (by simp [herr])]
      dsimp only
      rw [if_pos htrig, hfil]
      dsimp only
      rw [hlk]
      dsimp only
      rw [hex, hv]
      dsimp only
      by_cases hb : c1.bytes = c2.bytes
      · rw [if_pos hb]
        cases dry <;> rfl
      · rw [if_neg hb]
    · show (checkStep dry st kv).err = none
      unfold checkStep
      rw [if_neg (by simp [herr])]
      dsimp only
      rw [if_pos htrig, hfil]
      dsimp only
      rw [hlk]
      dsimp only
      rw [hex, hv]
      dsimp only
      by_cases hb : c1.bytes = c2.bytes
      · rw [if_pos hb]
        cases dry <;> exact herr
      · rw [if_neg hb]
        exact herr
  · intro ik v htrig hfil hlk hmiss
    have hstep : checkStep dry st kv =
        { st with moves := removeKey st.moves ik,
                  err := some ("filecmp io error") } := by
      unfold checkStep
      rw [if_neg (by simp [herr])]
      dsimp only
      rw [if_pos htrig, hfil]
      dsimp only
      rw [hlk]
      dsimp only
      cases hex2 : lookupP st.files (replaceAll patSorted patPlain kv.1) with
      | none => rfl
      | some c1 =>
        rcases hmiss with hm | hm
        · rw [hex2] at hm
          cases hm
        · rw [hm]
    rw [hstep]
    exact ⟨rfl, rfl⟩

/-- C5 (witness): concrete run in which the single comparison performed
matches by basename only, together with the per-entry characterization at
the initial state of that run. -/
theorem compare_pairs_characterized_witness :
    stC5.err = none ∧
    ((∀ pr ∈ (checkUpdate false movesC5 filesC5 oldC5).compares, ∃ k w nk p,
      (k, w) ∈ oldC5 ∧ (nk, p) ∈ movesC5 ∧
      basenameP nk = basenameP k ∧ containsSub (basenameP k) nk = true ∧
      pr = (replaceAll patSorted patPlain k, p)) ∧
    (basenameP ((str ("o/2020/B.jpg"), str ("x")) : Path × Path).1 ∉
        stC5.moves.map (fun nf => basenameP nf.1) →
      checkStep false stC5 (str ("o/2020/B.jpg"), str ("x")) = stC5) ∧
    (basenameP ((str ("o/2020/B.jpg"), str ("x")) : Path × Path).1 ∈
        stC5.moves.map (fun nf => basenameP nf.1) →
      ((stC5.moves.map Prod.fst).filter
        (fun nf => containsSub
          (basenameP ((str ("o/2020/B.jpg"), str ("x")) : Path × Path).1) nf)).length ≠ 1 →
      (checkStep false stC5 (str ("o/2020/B.jpg"), str ("x"))).compares = stC5.compares ∧
      (checkStep false stC5 (str ("o/2020/B.jpg"), str ("x"))).err =
        some ("more than one file with the same name")) ∧
    (∀ ik v c1 c2,
      basenameP ((str ("o/2020/B.jpg"), str ("x")) : Path × Path).1 ∈
        stC5.moves.map (fun nf => basenameP nf.1) →
      (stC5.moves.map Prod.fst).filter
        (fun nf => containsSub
          (basenameP ((str ("o/2020/B.jpg"), str ("x")) : Path × Path).1) nf) = [ik] →
      lookupP stC5.moves ik = some v →
      lookupP stC5.files (replaceAll patSorted patPlain
        ((str ("o/2020/B.jpg"), str ("x")) : Path × Path).1) = some c1 →
      lookupP stC5.files v = some c2 →
      (checkStep false stC5 (str ("o/2020/B.jpg"), str ("x"))).compares =
        stC5.compares ++ [(replaceAll patSorted patPlain
          ((str ("o/2020/B.jpg"), str ("x")) : Path × Path).1, v)] ∧
      (checkStep false stC5 (str ("o/2020/B.jpg"), str ("x"))).err = none) ∧
    (∀ ik v,
      basenameP ((str ("o/2020/B.jpg"), str ("x")) : Path × Path).1 ∈
        stC5.moves.map (fun nf => basenameP nf.1) →
      (stC5.moves.map Prod.fst).filter
        (fun nf => containsSub
          (basenameP ((str ("o/2020/B.jpg"), str ("x")) : Path × Path).1) nf) = [ik] →
      lookupP stC5.moves ik = some v →
      (lookupP stC5.files (replaceAll patSorted patPlain
        ((str ("o/2020/B.jpg"), str ("x")) : Path × Path).1) = none ∨
        lookupP stC5.files v = none) →
      (checkStep false stC5 (str ("o/2020/B.jpg"), str ("x"))).compares = stC5.compares ∧
      (checkStep false stC5 (str ("o/2020/B.jpg"), str ("x"))).err =
        some ("filecmp io error"))) :=
  ⟨by decide, compare_pairs_characterized false movesC5 filesC5 oldC5 stC5
    (str ("o/2020/B.jpg"), str ("x")) (by decide)⟩

/-- C5 (counterexample): a comparison is performed although the Ledger
and the Plan share no full TargetPath key at all; the keys o/2020/B.jpg
and o/2021/B.jpg merely share a basename. -/
theorem compare_without_shared_key :
    (checkUpdate false movesC5 filesC5 oldC5).compares =
      [(str ("o/2020/B.jpg"), str ("s/q.jpg"))] ∧
    (movesC5.map Prod.fst).filter
      (fun k2 => decide (k2 ∈ oldC5.map Prod.fst)) = [] := by
  decide

/-- C10: if the root directory has no files and every one of its
subdirectories is fully removed by cleanup, then cleanup removes the root
itself and the returned count is the total number of directories of the
tree, the root and every removed nested directory included.  In `main`
the function is invoked on the source directory, so a fully emptied
source tree is deleted entirely. -/
theorem cleanup_removes_emptied_root (subs : List DirTree)
    (hsubs : ∀ t ∈ subs, (cleanupT t).2 = none) :
    (cleanupT (.mk [] subs)).2 = none ∧
    (cleanupT (.mk [] subs)).1 = totalDirsT (.mk [] subs) := by
  have hA : ∀ t ∈ subs, (cleanupT t).2 = none → (cleanupT t).1 = totalDirsT t :=
    fun t _ => cleanupT_removed_count t
  obtain ⟨hrem, hcount⟩ := cleanupL_all_removed subs hA hsubs
  have hc : (([] : List Path).isEmpty && (cleanupL subs).2.isEmpty) = true := by
    rw [hrem]; rfl
  have hrun : cleanupT (.mk [] subs) = ((cleanupL subs).1 + 1, none) := by
    rw [cleanupT_mk, if_pos hc]
  rw [hrun, hcount]
  refine ⟨rfl, ?_⟩
  show totalDirsL subs + 1 = totalDirsT (.mk [] subs)
  rw [totalDirsT_mk]
  omega

/-- C10 (witness): a root holding one empty subdirectory is removed with
count two. -/
theorem cleanup_removes_emptied_root_witness :
    (∀ t ∈ [DirTree.mk [] []], (cleanupT t).2 = none) ∧
    ((cleanupT (.mk [] [DirTree.mk [] []])).2 = none ∧
      (cleanupT (.mk [] [DirTree.mk [] []])).1 =
        totalDirsT (.mk [] [DirTree.mk [] []])) :=
  ⟨by intro t ht
      have h1 : t = DirTree.mk [] [] := by simpa using ht
      subst h1
      rw [cleanupT_mk]
      rfl,
    cleanup_removes_emptied_root [DirTree.mk [] []]
      (by intro t ht
          have h1 : t = DirTree.mk [] [] := by simpa using ht
          subst h1
          rw [cleanupT_mk]
          rfl)⟩

/-- C6: the Plan produced by a successful `create_moves` has pairwise
distinct TargetPath keys: disambiguation suffixes collide neither with
each other nor with any key of another group within one planning pass. -/
theorem create_moves_keys_nodup (pics : List (Timestamp × Path)) (out : Path)
    (mvs : List (Path × Path)) (h : create_moves pics out = .ok mvs) :
    (mvs.map Prod.fst).Nodup :=
  create_moves_nodup_helper pics out mvs h

/-- C6 (witness): two same-second records receive the suffixes _1 and _2
and the resulting plan keys are distinct. -/
theorem create_moves_keys_nodup_witness :
    create_moves picsC6 (str ("o")) = .ok mvsC6 ∧
    (mvsC6.map Prod.fst).Nodup :=
  ⟨rfl, create_moves_keys_nodup picsC6 (str ("o")) mvsC6 rfl⟩

/-- C3: running Apply twice in a row on the same source tree with no new
files added produces zero additional moves and zero duplicate deletions on
the second run, provided the first run completed without error, issued no
ambiguous-duplicate warnings, and the output directory is not nested with
the source directory. (On a first run that emits a manual-review warning
the plan entry is dropped, the file stays behind with a suffixed sibling
already created, and the second run moves it again: see
apply_twice_not_idempotent.) -/
theorem apply_twice_idempotent (fs : FS) (source out : Path) (hout : out ≠ [])
    (hd1 : begWith (source ++ [ '/' ]) (out ++ [ '/' ]) = false)
    (hd2 : begWith (out ++ [ '/' ]) (source ++ [ '/' ]) = false)
    (h1 : (applyRun fs source out).err = none)
    (h2 : (applyRun fs source out).warnings = []) :
    (applyRun (applyRun fs source out).toFS source out).movedCount = 0 ∧
    (applyRun (applyRun fs source out).toFS source out).deletedDuplicates = 0 ∧
    (applyRun (applyRun fs source out).toFS source out).warnings = [] ∧
    (applyRun (applyRun fs source out).toFS source out).err = none := by
  have hdisj : ∀ p : Path, begWith (out ++ [ '/' ]) p = true →
      begWith (source ++ [ '/' ]) p = false := by
    intro p hp
    cases hq : begWith (source ++ [ '/' ]) p with
    | false => rfl
    | true =>
      rcases begWith_comparable (source ++ [ '/' ]) (out ++ [ '/' ]) p hq hp
        with hc | hc
      · rw [hd1] at hc; cases hc
      · rw [hd2] at hc; cases hc
  have hclear := apply_clears_source fs source out hout hdisj h1 h2
  have hpics : findPictures ((applyRun fs source out).toFS) source = [] := by
    apply findPictures_eq_nil
    intro pc hpc t hts
    cases hb : begWith (source ++ [ '/' ]) pc.1 with
    | false => rfl
    | true =>
      have := hclear pc.1 pc.2 hpc hb
      rw [hts] at this
      cases this
  unfold applyRun at hpics ⊢
  rw [hpics]
  exact doMoveFiles_no_pics _ _

theorem apply_twice_idempotent_witness :
    str ("o") ≠ [] ∧
    begWith (str ("s") ++ [ '/' ]) (str ("o") ++ [ '/' ]) = false ∧
    begWith (str ("o") ++ [ '/' ]) (str ("s") ++ [ '/' ]) = false ∧
    (applyRun fsC3w (str ("s")) (str ("o"))).err = none ∧
    (applyRun fsC3w (str ("s")) (str ("o"))).warnings = [] ∧
    ((applyRun (applyRun fsC3w (str ("s")) (str ("o"))).toFS
        (str ("s")) (str ("o"))).movedCount = 0 ∧
      (applyRun (applyRun fsC3w (str ("s")) (str ("o"))).toFS
        (str ("s")) (str ("o"))).deletedDuplicates = 0 ∧
      (applyRun (applyRun fsC3w (str ("s")) (str ("o"))).toFS
        (str ("s")) (str ("o"))).warnings = [] ∧
      (applyRun (applyRun fsC3w (str ("s")) (str ("o"))).toFS
        (str ("s")) (str ("o"))).err = none) :=
  ⟨by decide, by decide, by decide, by decide, by decide,
    apply_twice_idempotent fsC3w (str ("s")) (str ("o"))
      (by decide) (by decide) (by decide) (by decide) (by decide)⟩

/-- C3 counterexample: a first Apply run that succeeds (exit status zero,
one file moved) but prints a manual-review warning is not idempotent: the
warned plan entry was deleted before the comparison, its source file stays
behind, and because a sibling already occupies the group key the first run
stored the other file under a suffixed name; on the second run the group
has size one again and the leftover file is moved, so the second run
performs one additional move. -/
theorem apply_twice_not_idempotent :
    (applyRun fsC3cex (str ("s")) (str ("o"))).err = none ∧
    (applyRun (applyRun fsC3cex (str ("s")) (str ("o"))).toFS
      (str ("s")) (str ("o"))).movedCount = 1 ∧
    (applyRun (applyRun fsC3cex (str ("s")) (str ("o"))).toFS
      (str ("s")) (str ("o"))).err = none := by
  decide

-- CLAIMS_HERE

end SortPictures
